import Mathlib

/-!
Verification development for the hierarchical todo-list application
(source files: `App.py`, `utils.py`, `DBSetup.py`).

The relational state (`DBSetup.py` schema) is embedded as lists of records;
each SQL statement of the source is translated to an explicit list
computation.  Every committed database state is a value of type `DB`, so
multi-statement operations are modelled as functions between `DB` values,
and a statement sequence that commits twice is modelled as two functions
whose intermediate state is observable.
-/

namespace Todo

/-- Row of the `statuses` lookup table (`DBSetup.py`): `id`, `name`
(the optional `description` column is never read by the operations
under verification). -/
structure StatusRef where
  id : Nat
  name : String
deriving Repr, DecidableEq

/-- Row of the `categories` table: `id`, `name`, nullable `parent_id`
(self reference). -/
structure Category where
  id : Nat
  name : String
  parent_id : Option Nat
deriving Repr, DecidableEq

/-- Row of the `priorities` lookup table. -/
structure Priority where
  id : Nat
  level : Nat
  description : String
  color : String
deriving Repr, DecidableEq

/-- Row of the `threats` lookup table. -/
structure Threat where
  id : Nat
  level : String
  description : String
  color : String
deriving Repr, DecidableEq

/-- Row of the `tasks` table.  Dates are modelled as natural numbers
(e.g. `20260131` for 2026-01-31); `NULL` columns are `Option`. -/
structure Task where
  id : Nat
  title : String
  description : Option String
  due_date : Option Nat
  parent_id : Option Nat
  category_id : Option Nat
  priority_id : Option Nat
  threat_id : Option Nat
deriving Repr, DecidableEq

/-- Row of the `task_status_logs` table.  `timestamp` is the
`DATETIME DEFAULT CURRENT_TIMESTAMP` column, modelled as a natural
number. -/
structure LogEntry where
  id : Nat
  task_id : Nat
  status_id : Nat
  reason : Option String
  extra_info : Option String
  timestamp : Nat
deriving Repr, DecidableEq

/-- A committed SQLite database state, plus `now`, the wall clock used
for the `CURRENT_TIMESTAMP` default of `task_status_logs.timestamp`. -/
structure DB where
  statuses : List StatusRef
  categories : List Category
  priorities : List Priority
  threats : List Threat
  tasks : List Task
  logs : List LogEntry
  now : Nat
deriving Repr, DecidableEq

/-! ### Generic list machinery

`insertOrd`/`sortOrd` is a stable insertion sort: `before a x = true`
means the already-placed element `a` must stay in front of the element
`x` being inserted.  It models SQL `ORDER BY` (and Python `sorted`,
which is stable) over a scan in stored order. -/

/-- Insert `x` into `l`, skipping the elements that must stay before it. -/
def insertOrd (before : α → α → Bool) (x : α) : List α → List α
  | [] => [x]
  | a :: l => if before a x then a :: insertOrd before x l else x :: a :: l

/-- Stable sort of `l` with respect to `before`. -/
def sortOrd (before : α → α → Bool) : List α → List α
  | [] => []
  | x :: l => insertOrd before x (sortOrd before l)

/-! ### `utils.get_current_status`

```
SELECT s.name FROM task_status_logs tsl
JOIN statuses s ON tsl.status_id = s.id
WHERE tsl.task_id = ?
ORDER BY tsl.timestamp DESC, tsl.id DESC LIMIT 1
```
The `WHERE` clause is `logsFor`, the inner `JOIN` is `joinedLogs`
(entries whose `status_id` resolves, paired with the status name), and
`ORDER BY ... DESC LIMIT 1` is the fold `topLog?` selecting the entry
with the lexicographically greatest `(timestamp, id)`. -/

/-- The log entries of one task (`WHERE tsl.task_id = ?`). -/
def logsFor (db : DB) (taskId : Nat) : List LogEntry :=
  db.logs.filter (fun e => e.task_id == taskId)

/-- Resolve a `status_id` to its name (`JOIN statuses s ON s.id = ...`;
`statuses.id` is the primary key, so the first match is the row). -/
def resolveStatus (db : DB) (sid : Nat) : Option String :=
  (db.statuses.find? (fun s => s.id == sid)).map (fun s => s.name)

/-- The join of a task's log entries with `statuses`. -/
def joinedLogs (db : DB) (taskId : Nat) : List (LogEntry × String) :=
  (logsFor db taskId).filterMap
    (fun e => (resolveStatus db e.status_id).map (fun n => (e, n)))

/-- `laterLog a b` holds when `a` sorts strictly before `b` under
`ORDER BY timestamp DESC, id DESC`, i.e. `(b.timestamp, b.id)` is
lexicographically below `(a.timestamp, a.id)`. -/
def laterLog (a b : LogEntry) : Bool :=
  b.timestamp < a.timestamp || (a.timestamp == b.timestamp && b.id < a.id)

/-- One step of the `LIMIT 1` selection: keep the later entry. -/
def pickLater (acc : Option (LogEntry × String)) (x : LogEntry × String) :
    Option (LogEntry × String) :=
  match acc with
  | none => some x
  | some b => if laterLog x.1 b.1 then some x else some b

/-- The row produced by `ORDER BY timestamp DESC, id DESC LIMIT 1`. -/
def topLog? (l : List (LogEntry × String)) : Option (LogEntry × String) :=
  l.foldl pickLater none

/-- `utils.get_current_status`: name of the latest joined log entry, or
the sentinel `"Pending"` when the query returns no row. -/
def get_current_status (db : DB) (taskId : Nat) : String :=
  match topLog? (joinedLogs db taskId) with
  | some (_, n) => n
  | none => "Pending"

/-- Strict lexicographic order on `(timestamp, id)`, the recency order
used by `get_current_status`. -/
def lexLt (a b : LogEntry) : Prop :=
  a.timestamp < b.timestamp ∨ (a.timestamp = b.timestamp ∧ a.id < b.id)

instance (a b : LogEntry) : Decidable (lexLt a b) := by
  unfold lexLt; infer_instance

/-- `e` is the unique most recent entry of task `taskId`: every other
entry is lexicographically below it. -/
def IsLatest (db : DB) (taskId : Nat) (e : LogEntry) : Prop :=
  ∀ e' ∈ logsFor db taskId, e' = e ∨ lexLt e' e

instance (db : DB) (taskId : Nat) (e : LogEntry) : Decidable (IsLatest db taskId e) := by
  unfold IsLatest; infer_instance

/-- Schema integrity of a database state, as guaranteed by the
`DBSetup.py` schema: primary keys are unique, and the foreign keys
`task_status_logs.status_id` and `task_status_logs.task_id` resolve. -/
def WF (db : DB) : Prop :=
  (db.logs.map (fun e => e.id)).Nodup ∧
  (db.tasks.map (fun t => t.id)).Nodup ∧
  (db.statuses.map (fun s => s.id)).Nodup ∧
  (∀ e ∈ db.logs, ∃ s ∈ db.statuses, s.id = e.status_id) ∧
  (∀ e ∈ db.logs, ∃ t ∈ db.tasks, t.id = e.task_id)

instance (db : DB) : Decidable (WF db) := by
  unfold WF; infer_instance

/-! ### `utils.fetch_task_tree`

The base query left-joins `tasks` with `categories`, `priorities` and
`threats` (all on primary keys, so each task yields exactly one row),
optionally restricts to `t.category_id IN (...)`, and sorts by `t.id`.
The dataframe post-processing then adds `current_status` (one
`get_current_status` call per row), adds `num_subtasks` (a count over
the dataframe at that point, i.e. before the completion filter), and
finally drops `Completed`/`Cancelled` rows unless `show_completed`. -/

/-- One row of the dataframe returned by `fetch_task_tree`. -/
structure TaskRow where
  id : Nat
  title : String
  description : Option String
  due_date : Option Nat
  parent_id : Option Nat
  category_id : Option Nat
  category_name : Option String
  priority_level : Option Nat
  threat_level : Option String
  current_status : String
  num_subtasks : Nat
deriving Repr, DecidableEq

/-- The three `LEFT JOIN`s of the base query (each joined table is keyed
by its primary key, so `find?` returns the unique matching row). -/
def toTaskRow (db : DB) (t : Task) : TaskRow :=
  { id := t.id
    title := t.title
    description := t.description
    due_date := t.due_date
    parent_id := t.parent_id
    category_id := t.category_id
    category_name :=
      t.category_id.bind (fun c => (db.categories.find? (fun x => x.id == c)).map (fun x => x.name))
    priority_level :=
      t.priority_id.bind (fun p => (db.priorities.find? (fun x => x.id == p)).map (fun x => x.level))
    threat_level :=
      t.threat_id.bind (fun h => (db.threats.find? (fun x => x.id == h)).map (fun x => x.level))
    current_status := ""
    num_subtasks := 0 }

/-- The `WHERE t.category_id IN (...)` clause.  A `None` filter, or the
empty list (falsy in `if selected_category_ids:`), applies no
restriction; `NULL` category ids never match an `IN` list. -/
def categoryFiltered (db : DB) (catFilter : Option (List Nat)) : List Task :=
  match catFilter with
  | none => db.tasks
  | some ids =>
      if ids.isEmpty then db.tasks
      else db.tasks.filter (fun t => ids.any (fun c => t.category_id == some c))

/-- The dataframe as read from SQL: filtered, ordered by `t.id`, joined. -/
def baseRows (db : DB) (catFilter : Option (List Nat)) : List TaskRow :=
  (sortOrd (fun a b => a.id < b.id) (categoryFiltered db catFilter)).map (toTaskRow db)

/-- The dataframe after `df['current_status'] = df['id'].apply(get_current_status)`. -/
def rowsWithStatus (db : DB) (catFilter : Option (List Nat)) : List TaskRow :=
  (baseRows db catFilter).map (fun r => { r with current_status := get_current_status db r.id })

/-- The dataframe after the `num_subtasks` column is added: for each row,
the number of rows of this same (pre-completion-filter) dataframe whose
`parent_id` equals the row's id. -/
def rowsWithCounts (db : DB) (catFilter : Option (List Nat)) : List TaskRow :=
  (rowsWithStatus db catFilter).map
    (fun r => { r with
      num_subtasks := (rowsWithStatus db catFilter).countP (fun x => x.parent_id == some r.id) })

/-- `utils.fetch_task_tree`.  When `show_completed` is false the rows
whose derived `current_status` is `Completed` or `Cancelled` are dropped
(the `if not df.empty` guard of the source changes nothing: on an empty
dataframe every step returns the empty result either way). -/
def fetch_task_tree (db : DB) (catFilter : Option (List Nat)) (show_completed : Bool) :
    List TaskRow :=
  if show_completed then rowsWithCounts db catFilter
  else (rowsWithCounts db catFilter).filter
    (fun r => !(r.current_status == "Completed") && !(r.current_status == "Cancelled"))

/-! ### Round trips

Each `conn.execute`/`pd.read_sql_query` is one round trip to the store.
`get_current_status` performs exactly one; `fetch_task_tree` performs
one for the base query and then, when the dataframe is not empty, one
`get_current_status` call per row (`df['id'].apply(get_current_status)`). -/

/-- Round trips of one `get_current_status` call: a single `SELECT`. -/
def get_current_status_roundTrips : Nat := 1

/-- Round trips of a `fetch_task_tree` call. -/
def fetch_task_tree_roundTrips (db : DB) (catFilter : Option (List Nat)) : Nat :=
  1 + (if (baseRows db catFilter).isEmpty then 0
       else (baseRows db catFilter).length * get_current_status_roundTrips)

/-- Round trips of `build_task_hierarchy_for_tree`: the single batched
query containing the `latest_status` CTE. -/
def build_task_hierarchy_roundTrips : Nat := 1

/-! ### The `latest_status` CTE of `utils.build_task_hierarchy_for_tree`

```
SELECT tsl.task_id, COALESCE(s.name, 'Pending') AS status
FROM (SELECT task_id, MAX(id) AS max_id FROM task_status_logs GROUP BY task_id) latest_log
LEFT JOIN task_status_logs tsl ON tsl.id = latest_log.max_id
LEFT JOIN statuses s ON tsl.status_id = s.id
UNION ALL
SELECT t.id, 'Pending' FROM tasks t
WHERE NOT EXISTS (SELECT 1 FROM task_status_logs WHERE task_id = t.id)
```
`GROUP BY task_id` yields the distinct task ids appearing in the log;
`MAX(id)` of a group is a member of the group, so the first `LEFT JOIN`
always matches (the `filterMap` below therefore never actually drops a
group). -/

/-- Distinct task ids having at least one log entry (`GROUP BY task_id`). -/
def taskIdsWithLogs (db : DB) : List Nat :=
  (db.logs.map (fun e => e.task_id)).dedup

/-- `MAX(id)` over the log entries of one task. -/
def maxLogId (db : DB) (taskId : Nat) : Nat :=
  ((logsFor db taskId).map (fun e => e.id)).foldl Nat.max 0

/-- The rows of the `latest_status` CTE: per logged task id, the status
name of its maximum-id entry (`'Pending'` when the status does not
resolve), then one `'Pending'` row per task with no log entries. -/
def latest_status_rows (db : DB) : List (Nat × String) :=
  (taskIdsWithLogs db).filterMap
    (fun tid => (db.logs.find? (fun e => e.id == maxLogId db tid)).map
      (fun e => (e.task_id, (resolveStatus db e.status_id).getD "Pending")))
  ++ (db.tasks.filter (fun t => (logsFor db t.id).isEmpty)).map (fun t => (t.id, "Pending"))

/-- The status attached to a task by the main query's
`JOIN latest_status ls ON t.id = ls.task_id`. -/
def treeStatusOf (db : DB) (taskId : Nat) : String :=
  (((latest_status_rows db).find? (fun p => p.1 == taskId)).map (fun p => p.2)).getD "Pending"

/-! ### `utils.fetch_status_history`

```
SELECT tsl.timestamp, s.name AS status, tsl.reason, tsl.extra_info
FROM task_status_logs tsl JOIN statuses s ON tsl.status_id = s.id
WHERE tsl.task_id = ? ORDER BY tsl.timestamp DESC
```
The `ORDER BY` names only the timestamp; rows with equal timestamps
come out of the sort in their underlying scan order (entries in stored,
i.e. insertion, order), modelled by a stable sort. -/

/-- One row of the history dataframe. -/
structure HistoryRow where
  timestamp : Nat
  status : String
  reason : Option String
  extra_info : Option String
deriving Repr, DecidableEq

/-- Project a joined log entry to its history row. -/
def toHistoryRow (p : LogEntry × String) : HistoryRow :=
  { timestamp := p.1.timestamp, status := p.2, reason := p.1.reason, extra_info := p.1.extra_info }

/-- `utils.fetch_status_history`: joined rows sorted by timestamp
descending only (no id tie-break). -/
def fetch_status_history (db : DB) (taskId : Nat) : List HistoryRow :=
  sortOrd (fun a b => b.timestamp < a.timestamp)
    ((joinedLogs db taskId).map toHistoryRow)

/-! ### Write operations (`App.py` / `utils.py`)

`AUTOINCREMENT` primary keys are modelled as maximum-so-far plus one.
Each function is one committed statement (`conn.commit()` at the end of
the corresponding `with get_connection()` block), so its result is an
observable persisted state. -/

/-- The next `tasks.id` assigned by `AUTOINCREMENT`. -/
def newTaskId (db : DB) : Nat :=
  (db.tasks.map (fun t => t.id)).foldl Nat.max 0 + 1

/-- The next `task_status_logs.id` assigned by `AUTOINCREMENT`. -/
def newLogId (db : DB) : Nat :=
  (db.logs.map (fun e => e.id)).foldl Nat.max 0 + 1

/-- `App.insert_task`: insert the row, commit, return `lastrowid`. -/
def insert_task (db : DB) (title : String) (description : Option String)
    (due_date parent_id category_id priority_id threat_id : Option Nat) : DB × Nat :=
  let tid := newTaskId db
  ({ db with tasks := db.tasks ++
      [{ id := tid, title := title, description := description, due_date := due_date,
         parent_id := parent_id, category_id := category_id,
         priority_id := priority_id, threat_id := threat_id }] }, tid)

/-- Resolve a status name to its id (`SELECT id FROM statuses WHERE name=?`). -/
def statusIdOf (db : DB) (name : String) : Option Nat :=
  (db.statuses.find? (fun s => s.name == name)).map (fun s => s.id)

/-- `utils.insert_status_log`: append one log entry with the resolved
status id and the current-timestamp default, then commit.  When the
name does not resolve, the subquery yields `NULL` and the insert fails
on the `status_id NOT NULL` constraint: result `none`, nothing written. -/
def insert_status_log (db : DB) (taskId : Nat) (statusName : String)
    (reason extra_info : Option String) : Option DB :=
  match statusIdOf db statusName with
  | none => none
  | some sid =>
      some { db with
        logs := db.logs ++
          [{ id := newLogId db, task_id := taskId, status_id := sid,
             reason := reason, extra_info := extra_info, timestamp := db.now }],
        now := db.now + 1 }

/-- The `new_main_task` form submit (`App.py`): `insert_task` commits,
then `insert_status_log(task_id, "Not Started")` commits. -/
def new_main_task (db : DB) (title : String) (description : Option String)
    (due_date category_id priority_id threat_id : Option Nat) : Option (DB × Nat) :=
  let p := insert_task db title description due_date none category_id priority_id threat_id
  (insert_status_log p.1 p.2 "Not Started" none none).map (fun db2 => (db2, p.2))

/-! ### `App.delete_category`

Three statements on one connection inside one transaction, committed
together; a store error at any point rolls the transaction back, so the
pre-call state is restored and `(False, message)` is returned.  The
simulated failure point `failAt` names the statement that raises. -/

/-- Statement 1: `UPDATE categories SET parent_id = NULL WHERE parent_id = ?`. -/
def reparentStep (db : DB) (cid : Nat) : DB :=
  { db with categories :=
      (db.categories.map
        (fun c => if c.parent_id == some cid then { c with parent_id := none } else c)) }

/-- Statement 2: `UPDATE tasks SET category_id = NULL WHERE category_id = ?`. -/
def uncatStep (db : DB) (cid : Nat) : DB :=
  { db with tasks :=
      (db.tasks.map
        (fun t => if t.category_id == some cid then { t with category_id := none } else t)) }

/-- Statement 3: `DELETE FROM categories WHERE id = ?`. -/
def deleteStep (db : DB) (cid : Nat) : DB :=
  { db with categories := db.categories.filter (fun c => !(c.id == cid)) }

/-- `App.delete_category`: on success the three statements commit as one
transaction; on a simulated `sqlite3.Error` the rollback discards every
uncommitted statement, leaving the original state (the source appends
the exception text to the returned message). -/
def delete_category (db : DB) (cid : Nat) (failAt : Option (Fin 3)) : Bool × String × DB :=
  match failAt with
  | some _ => (false, "Database error", db)
  | none =>
      (true,
       "Category deleted. Its tasks are now uncategorized and its sub-categories are now top-level.",
       deleteStep (uncatStep (reparentStep db cid) cid) cid)

/-! ### `App.build_category_hierarchy` / `get_full_path`

The inner `get_full_path` walks the parent chain of a category,
carrying the set of ids already on the current path; the branch order
is exactly the source's: missing/`None` id gives `""`, a revisited id
gives the cycle marker, otherwise the parent path is resolved first and
the name appended with the `" > "` separator.  The Python recursion has
no explicit bound, so the embedding carries a fuel parameter standing
for the call stack; `none` means the fuel was exhausted before the
recursion returned, and the termination theorem shows that
`cats.length + 1` fuel always suffices. -/

/-- First categories row with the given id (`categories['id'] == cat_id`
selects by the primary key, so the first row is the row). -/
def lookupCat (cats : List Category) (cid : Nat) : Option Category :=
  cats.find? (fun c => c.id == cid)

/-- The marker emitted when resolution revisits an id on the path. -/
def cycleMarker : String := "... (cycle)"

/-- `get_full_path(cat_id, visited)` with explicit recursion fuel. -/
def get_full_path (cats : List Category) : Nat → Option Nat → List Nat → Option String
  | 0, _, _ => none
  | _ + 1, none, _ => some ""
  | fuel + 1, some cid, visited =>
      match lookupCat cats cid with
      | none => some ""
      | some c =>
          if visited.contains cid then some cycleMarker
          else
            match get_full_path cats fuel c.parent_id (cid :: visited) with
            | none => none
            | some pp => some (if pp == "" then c.name else pp ++ " > " ++ c.name)

/-- Number of category rows whose id is not yet visited: an upper bound
on the remaining recursion depth of `get_full_path`. -/
def unvisitedCount (cats : List Category) (visited : List Nat) : Nat :=
  (cats.filter (fun c => !(visited.contains c.id))).length

/-- One step up the parent chain. -/
def chainStep (cats : List Category) (o : Option Nat) : Option Nat :=
  o.bind (fun j => (lookupCat cats j).bind (fun c => c.parent_id))

/-- The ancestor chain of a category id: `chain cats cid n` is the id
reached after following `parent_id` links `n` times. -/
def chain (cats : List Category) (cid : Nat) : Nat → Option Nat
  | 0 => some cid
  | n + 1 => chainStep cats (chain cats cid n)

/-- The ancestry of `cid` contains a cycle: the parent chain never
leaves the category table, hence (the table being finite) revisits ids
forever. -/
def CycleFrom (cats : List Category) (cid : Nat) : Prop :=
  ∀ n, ∃ j, chain cats cid n = some j ∧ (lookupCat cats j).isSome = true

/-! ### The markdown export (`App.py`, `Generate & Download Markdown`)

The export fetches `fetch_task_tree(selected_category_ids=None,
show_completed=True)` (recomputing `current_status` is a no-op: the
column already holds `get_current_status` of each id), builds the
parent→children index over the full row set, splits the rows by status
into `active_df`/`completed_df`, and renders each section by grouping
on `category_id` (pandas `groupby` drops the `NaN` key, so rows with a
`NULL` category form no group), taking the group rows with `NULL`
`parent_id` as roots, sorting by due date with a `9999-12-31` sentinel,
and writing each root's subtree depth-first via `write_task_recursive`,
whose children always come from the full-set index.

The embedding records, per section, the sequence of task ids written;
titles and styling are presentation glue that does not affect which
task lands in which section.  `write_task_recursive` carries fuel for
the Python call stack; `allRows.length + 1` suffices whenever parent
links point to older (smaller) ids, which `AUTOINCREMENT` guarantees. -/

/-- The full row set the export works on. -/
def exportRows (db : DB) : List TaskRow :=
  fetch_task_tree db none true

/-- Membership in the `['Completed','Cancelled']` list. -/
def isDoneStatus (s : String) : Bool :=
  s == "Completed" || s == "Cancelled"

/-- `active_df`: rows whose status is not in the done set. -/
def activeRows (db : DB) : List TaskRow :=
  (exportRows db).filter (fun r => !(isDoneStatus r.current_status))

/-- `completed_df`: rows whose status is in the done set. -/
def completedRows (db : DB) : List TaskRow :=
  (exportRows db).filter (fun r => isDoneStatus r.current_status)

/-- The parent→children index entry for one id (built over `rows`). -/
def childrenOf (rows : List TaskRow) (tid : Nat) : List TaskRow :=
  rows.filter (fun r => r.parent_id == some tid)

/-- The due-date sort key, with the far-future sentinel for `NULL`. -/
def dueKey (r : TaskRow) : Nat :=
  r.due_date.getD 99991231

/-- `sorted(rows, key=sort_key)`: stable ascending sort by due date. -/
def sortByDue (l : List TaskRow) : List TaskRow :=
  sortOrd (fun a b => dueKey a < dueKey b) l

/-- `write_task_recursive`, reduced to the ids it writes: the row's own
id, then each child subtree in due-date order. -/
def renderTask (rows : List TaskRow) : Nat → TaskRow → List Nat
  | 0, _ => []
  | fuel + 1, r => r.id :: (sortByDue (childrenOf rows r.id)).flatMap (renderTask rows fuel)

/-- One step of collecting the groupby keys: append a not-yet-seen
non-`NULL` category id. -/
def catKeysStep (acc : List Nat) (r : TaskRow) : List Nat :=
  match r.category_id with
  | some c => if acc.contains c then acc else acc ++ [c]
  | none => acc

/-- The groupby keys of a section: distinct non-`NULL` category ids in
first-occurrence order (`sort=False`; the `NaN` key is dropped). -/
def catKeys (l : List TaskRow) : List Nat :=
  l.foldl catKeysStep []

/-- Render one section: per category group, the group's roots in
due-date order, each expanded depth-first over the full-set index. -/
def renderSection (allRows sect : List TaskRow) : List Nat :=
  (catKeys sect).flatMap
    (fun cid =>
      let group := sect.filter (fun r => r.category_id == some cid)
      let roots := group.filter (fun r => r.parent_id == none)
      (sortByDue roots).flatMap (renderTask allRows (allRows.length + 1)))

/-- Task ids written under `## Active Tasks`. -/
def export_active_ids (db : DB) : List Nat :=
  renderSection (exportRows db) (activeRows db)

/-- Task ids written under `## Completed Tasks`. -/
def export_completed_ids (db : DB) : List Nat :=
  renderSection (exportRows db) (completedRows db)

/-! ### Further database hypotheses -/

/-- Subtask links point to previously created tasks: `AUTOINCREMENT`
assigns strictly growing ids, and a parent row exists before any of its
subtasks is inserted. -/
def ParentIdsLt (db : DB) : Prop :=
  ∀ t ∈ db.tasks, ∀ p, t.parent_id = some p → p < t.id

instance (db : DB) : Decidable (ParentIdsLt db) := by
  unfold ParentIdsLt; infer_instance

/-- Per task, log timestamps never decrease along growing entry ids:
the append-only pattern of `CURRENT_TIMESTAMP` defaults under a
non-retrograde clock. -/
def TsMonotone (db : DB) : Prop :=
  ∀ e ∈ db.logs, ∀ e' ∈ db.logs,
    e.task_id = e'.task_id → e.id ≤ e'.id → e.timestamp ≤ e'.timestamp

instance (db : DB) : Decidable (TsMonotone db) := by
  unfold TsMonotone; infer_instance

/-! ### Concrete states used by witnesses and counterexamples -/

/-- The six seeded rows of the `statuses` table (`DBSetup.py`). -/
def seededStatuses : List StatusRef :=
  [⟨1, "Not Started"⟩, ⟨2, "In Progress"⟩, ⟨3, "Blocked"⟩,
   ⟨4, "Ongoing"⟩, ⟨5, "Completed"⟩, ⟨6, "Cancelled"⟩]

/-- A freshly set-up store: seeded lookups, no user data. -/
def dbEmpty : DB :=
  { statuses := seededStatuses, categories := [], priorities := [], threats := [],
    tasks := [], logs := [], now := 100 }

/-- Two tasks: task 2 is a subtask of task 1; task 1 is `In Progress`,
task 2 is `Completed`. -/
def dbPair : DB :=
  { statuses := seededStatuses, categories := [], priorities := [], threats := [],
    tasks :=
      [{ id := 1, title := "parent", description := none, due_date := none,
         parent_id := none, category_id := none, priority_id := none, threat_id := none },
       { id := 2, title := "child", description := none, due_date := none,
         parent_id := some 1, category_id := none, priority_id := none, threat_id := none }],
    logs :=
      [{ id := 1, task_id := 1, status_id := 2, reason := none, extra_info := none, timestamp := 10 },
       { id := 2, task_id := 2, status_id := 5, reason := none, extra_info := none, timestamp := 11 }],
    now := 12 }

/-- One task with two log entries whose timestamps collide: entry 1
(`In Progress`, reason `first`) and entry 2 (`Completed`, reason
`second`) both at timestamp 5. -/
def dbTie : DB :=
  { statuses := seededStatuses, categories := [], priorities := [], threats := [],
    tasks :=
      [{ id := 1, title := "t", description := none, due_date := none,
         parent_id := none, category_id := none, priority_id := none, threat_id := none }],
    logs :=
      [{ id := 1, task_id := 1, status_id := 2, reason := some "first", extra_info := none, timestamp := 5 },
       { id := 2, task_id := 1, status_id := 5, reason := some "second", extra_info := none, timestamp := 5 }],
    now := 6 }

/-- One task whose second log entry (higher id) carries an earlier
timestamp than its first: a retrograde-clock state the schema admits. -/
def dbSkew : DB :=
  { statuses := seededStatuses, categories := [], priorities := [], threats := [],
    tasks :=
      [{ id := 1, title := "t", description := none, due_date := none,
         parent_id := none, category_id := none, priority_id := none, threat_id := none }],
    logs :=
      [{ id := 1, task_id := 1, status_id := 2, reason := none, extra_info := none, timestamp := 10 },
       { id := 2, task_id := 1, status_id := 5, reason := none, extra_info := none, timestamp := 5 }],
    now := 11 }

/-- Export scenario: category 1 holds active root task 1 with completed
subtask 2; task 3 is an active root with no category. -/
def dbExport : DB :=
  { statuses := seededStatuses,
    categories := [{ id := 1, name := "Work", parent_id := none }],
    priorities := [], threats := [],
    tasks :=
      [{ id := 1, title := "root", description := none, due_date := none,
         parent_id := none, category_id := some 1, priority_id := none, threat_id := none },
       { id := 2, title := "sub", description := none, due_date := none,
         parent_id := some 1, category_id := some 1, priority_id := none, threat_id := none },
       { id := 3, title := "loose", description := none, due_date := none,
         parent_id := none, category_id := none, priority_id := none, threat_id := none }],
    logs :=
      [{ id := 1, task_id := 1, status_id := 2, reason := none, extra_info := none, timestamp := 1 },
       { id := 2, task_id := 2, status_id := 5, reason := none, extra_info := none, timestamp := 2 },
       { id := 3, task_id := 3, status_id := 1, reason := none, extra_info := none, timestamp := 3 }],
    now := 4 }

/-- A single category that is its own parent: the smallest cyclic
ancestry. -/
def catsLoop : List Category :=
  [{ id := 1, name := "A", parent_id := some 1 }]

/-! ### Lemmas: stable sort -/

theorem mem_insertOrd {before : α → α → Bool} {x a : α} :
    ∀ {l : List α}, a ∈ insertOrd before x l ↔ a = x ∨ a ∈ l := by
  intro l
  induction l with
  | nil => simp [insertOrd]
  | cons b l ih =>
      show a ∈ (if before b x then b :: insertOrd before x l else x :: b :: l) ↔ _
      by_cases h : before b x
      · rw [if_pos h]
        simp only [List.mem_cons, ih]
        tauto
      · rw [if_neg h]
        simp only [List.mem_cons]

theorem perm_insertOrd (before : α → α → Bool) (x : α) :
    ∀ (l : List α), (insertOrd before x l).Perm (x :: l) := by
  intro l
  induction l with
  | nil => simp [insertOrd]
  | cons b l ih =>
      show List.Perm (if before b x then b :: insertOrd before x l else x :: b :: l) (x :: b :: l)
      by_cases h : before b x
      · rw [if_pos h]
        exact (ih.cons b).trans (List.Perm.swap x b l)
      · rw [if_neg h]

theorem perm_sortOrd (before : α → α → Bool) :
    ∀ (l : List α), (sortOrd before l).Perm l := by
  intro l
  induction l with
  | nil => simp [sortOrd]
  | cons b l ih => exact (perm_insertOrd before b (sortOrd before l)).trans (ih.cons b)

theorem mem_sortOrd {before : α → α → Bool} {a : α} {l : List α} :
    a ∈ sortOrd before l ↔ a ∈ l :=
  (perm_sortOrd before l).mem_iff

theorem pairwise_insertOrd {before : α → α → Bool} {R : α → α → Prop}
    (htrans : ∀ a b c, R a b → R b c → R a c)
    (hyes : ∀ a b, before a b = true → R a b)
    (hno : ∀ a b, before a b = false → R b a) (x : α) :
    ∀ {l : List α}, l.Pairwise R → (insertOrd before x l).Pairwise R := by
  intro l
  induction l with
  | nil => intro _; simp [insertOrd]
  | cons b l ih =>
      intro hp
      obtain ⟨hb1, hb2⟩ := List.pairwise_cons.mp hp
      show List.Pairwise R (if before b x then b :: insertOrd before x l else x :: b :: l)
      by_cases h : before b x
      · rw [if_pos h]
        refine List.pairwise_cons.mpr ⟨?_, ih hb2⟩
        intro y hy
        rcases mem_insertOrd.mp hy with rfl | hy
        · exact hyes _ _ h
        · exact hb1 y hy
      · rw [if_neg h]
        have hf : before b x = false := by revert h; cases before b x <;> simp
        refine List.pairwise_cons.mpr ⟨?_, hp⟩
        intro y hy
        rcases List.mem_cons.mp hy with rfl | hy
        · exact hno _ _ hf
        · exact htrans _ _ _ (hno _ _ hf) (hb1 y hy)

theorem pairwise_sortOrd {before : α → α → Bool} {R : α → α → Prop}
    (htrans : ∀ a b c, R a b → R b c → R a c)
    (hyes : ∀ a b, before a b = true → R a b)
    (hno : ∀ a b, before a b = false → R b a) :
    ∀ (l : List α), (sortOrd before l).Pairwise R := by
  intro l
  induction l with
  | nil => simp [sortOrd]
  | cons b l ih => exact pairwise_insertOrd htrans hyes hno b ih

/-! ### Lemmas: the `LIMIT 1` fold of `get_current_status` -/

theorem laterLog_self (a : LogEntry) : laterLog a a = false := by
  simp [laterLog]

theorem laterLog_eq_false_of_lexLt {a b : LogEntry} (h : lexLt a b) : laterLog a b = false := by
  rcases h with h | ⟨h1, h2⟩ <;> simp [laterLog] <;> omega

theorem laterLog_eq_true_of_lexLt {a b : LogEntry} (h : lexLt a b) : laterLog b a = true := by
  rcases h with h | ⟨h1, h2⟩ <;> simp [laterLog] <;> omega

theorem foldl_pickLater_acc :
    ∀ (l : List (LogEntry × String)) (acc : Option (LogEntry × String)),
      l.foldl pickLater acc = acc ∨ ∃ x ∈ l, l.foldl pickLater acc = some x := by
  intro l
  induction l with
  | nil => intro acc; exact Or.inl rfl
  | cons b l ih =>
      intro acc
      show (l.foldl pickLater (pickLater acc b) = acc) ∨ _
      rcases ih (pickLater acc b) with h | ⟨x, hx, h⟩
      · cases acc with
        | none =>
            refine Or.inr ⟨b, List.mem_cons_self b l, ?_⟩
            simpa [pickLater] using h
        | some a =>
            by_cases hb : laterLog b.1 a.1 = true
            · refine Or.inr ⟨b, List.mem_cons_self b l, ?_⟩
              simpa [pickLater, hb] using h
            · refine Or.inl ?_
              simpa [pickLater, hb] using h
      · exact Or.inr ⟨x, List.mem_cons_of_mem b hx, h⟩

theorem foldl_pickLater_stay {e : LogEntry} {n : String} :
    ∀ {l : List (LogEntry × String)}, (∀ x ∈ l, laterLog x.1 e = false) →
      l.foldl pickLater (some (e, n)) = some (e, n) := by
  intro l
  induction l with
  | nil => intro _; rfl
  | cons b l ih =>
      intro h
      show l.foldl pickLater (pickLater (some (e, n)) b) = _
      have hb : laterLog b.1 e = false := h b (List.mem_cons_self b l)
      rw [show pickLater (some (e, n)) b = some (e, n) by simp [pickLater, hb]]
      exact ih (fun x hx => h x (List.mem_cons_of_mem b hx))

theorem foldl_pickLater_ne_none (b : LogEntry × String) :
    ∀ (l : List (LogEntry × String)), l.foldl pickLater (some b) ≠ none := by
  intro l
  induction l generalizing b with
  | nil => simp
  | cons c l ih =>
      show l.foldl pickLater (pickLater (some b) c) ≠ none
      by_cases hc : laterLog c.1 b.1 = true
      · rw [show pickLater (some b) c = some c by simp [pickLater, hc]]
        exact ih c
      · rw [show pickLater (some b) c = some b by simp [pickLater, hc]]
        exact ih b

theorem topLog?_eq_none {l : List (LogEntry × String)} : topLog? l = none ↔ l = [] := by
  constructor
  · intro h
    cases l with
    | nil => rfl
    | cons b l =>
        exfalso
        have : l.foldl pickLater (pickLater none b) = none := h
        rw [show pickLater none b = some b from rfl] at this
        exact foldl_pickLater_ne_none b l this
  · intro h; subst h; rfl

theorem topLog?_eq_some {l : List (LogEntry × String)} {e : LogEntry} {n : String}
    (hmem : (e, n) ∈ l) (hmax : ∀ x ∈ l, x ≠ (e, n) → lexLt x.1 e) :
    topLog? l = some (e, n) := by
  obtain ⟨l₁, l₂, rfl⟩ := List.append_of_mem hmem
  have hstay : ∀ x ∈ l₂, laterLog x.1 e = false := by
    intro x hx
    by_cases hxe : x = (e, n)
    · subst hxe; exact laterLog_self e
    · exact laterLog_eq_false_of_lexLt
        (hmax x (by simp [List.mem_append, List.mem_cons, hx]) hxe)
  show (l₁ ++ (e, n) :: l₂).foldl pickLater none = some (e, n)
  rw [List.foldl_append]
  rcases foldl_pickLater_acc l₁ none with h1 | ⟨x, hx, h1⟩
  · rw [h1]
    show l₂.foldl pickLater (pickLater none (e, n)) = some (e, n)
    rw [show pickLater none (e, n) = some (e, n) from rfl]
    exact foldl_pickLater_stay hstay
  · rw [h1]
    by_cases hxe : x = (e, n)
    · subst hxe
      show l₂.foldl pickLater (pickLater (some (e, n)) (e, n)) = some (e, n)
      rw [show pickLater (some (e, n)) (e, n) = some (e, n) by
        simp [pickLater, laterLog_self]]
      exact foldl_pickLater_stay hstay
    · have hlt : lexLt x.1 e :=
        hmax x (by simp [List.mem_append, hx]) hxe
      show l₂.foldl pickLater (pickLater (some x) (e, n)) = some (e, n)
      rw [show pickLater (some x) (e, n) = some (e, n) by
        simp [pickLater, laterLog_eq_true_of_lexLt hlt]]
      exact foldl_pickLater_stay hstay

/-! ### Lemmas: unique keys -/

theorem nodup_key_eq {f : α → β} :
    ∀ {l : List α}, (l.map f).Nodup → ∀ {a b : α}, a ∈ l → b ∈ l → f a = f b → a = b := by
  intro l
  induction l with
  | nil => intro _ a b ha; exact absurd ha (List.not_mem_nil a)
  | cons x l ih =>
      intro hnd a b ha hb hf
      rw [List.map_cons, List.nodup_cons] at hnd
      rcases List.mem_cons.mp ha with ha' | ha'
      · rcases List.mem_cons.mp hb with hb' | hb'
        · rw [ha', hb']
        · exfalso
          apply hnd.1
          rw [← ha', hf]
          exact List.mem_map_of_mem f hb'
      · rcases List.mem_cons.mp hb with hb' | hb'
        · exfalso
          apply hnd.1
          rw [← hb', ← hf]
          exact List.mem_map_of_mem f ha'
        · exact ih hnd.2 ha' hb' hf

theorem countP_key_of_mem [DecidableEq β] {f : α → β} {l : List α} {a : α}
    (hnd : (l.map f).Nodup) (ha : a ∈ l) :
    l.countP (fun x => f x == f a) = 1 := by
  have h1 : l.countP (fun x => f x == f a) = (l.map f).countP (fun y => y == f a) := by
    rw [List.countP_map]; rfl
  rw [h1, ← List.count_eq_countP]
  exact List.count_eq_one_of_mem hnd (List.mem_map_of_mem f ha)

theorem countP_key_of_not_mem [BEq β] [LawfulBEq β] {f : α → β} {l : List α} {k : β}
    (h : ∀ x ∈ l, f x ≠ k) :
    l.countP (fun x => f x == k) = 0 := by
  rw [List.countP_eq_zero]
  intro x hx
  simpa using h x hx

/-! ### Lemmas: `foldl Nat.max` -/

theorem foldl_max_mem : ∀ (l : List Nat) (a : Nat), l.foldl Nat.max a ∈ a :: l := by
  intro l
  induction l with
  | nil => intro a; exact List.mem_cons_self a []
  | cons x l ih =>
      intro a
      show l.foldl Nat.max (Nat.max a x) ∈ a :: x :: l
      rcases List.mem_cons.mp (ih (Nat.max a x)) with h | h
      · rcases Nat.le_total a x with hm | hm
        · have hm' : Nat.max a x = x := Nat.max_eq_right hm
          rw [h, hm']; exact List.mem_cons_of_mem a (List.mem_cons_self x l)
        · have hm' : Nat.max a x = a := Nat.max_eq_left hm
          rw [h, hm']; exact List.mem_cons_self a _
      · exact List.mem_cons_of_mem a (List.mem_cons_of_mem x h)

theorem init_le_foldl_max : ∀ (l : List Nat) (a : Nat), a ≤ l.foldl Nat.max a := by
  intro l
  induction l with
  | nil => intro a; exact Nat.le_refl a
  | cons y l ih =>
      intro a
      calc a ≤ Nat.max a y := Nat.le_max_left a y
      _ ≤ l.foldl Nat.max (Nat.max a y) := ih (Nat.max a y)

theorem le_foldl_max : ∀ (l : List Nat) (a x : Nat), x ∈ l → x ≤ l.foldl Nat.max a := by
  intro l
  induction l with
  | nil => intro a x hx; exact absurd hx (List.not_mem_nil x)
  | cons y l ih =>
      intro a x hx
      rcases List.mem_cons.mp hx with rfl | hx
      · show x ≤ l.foldl Nat.max (Nat.max a x)
        calc x ≤ Nat.max a x := Nat.le_max_right a x
        _ ≤ l.foldl Nat.max (Nat.max a x) := init_le_foldl_max l (Nat.max a x)
      · exact ih (Nat.max a y) x hx

/-! ### Lemmas: strict filter length decrease -/

theorem filter_sublist_filter {p q : α → Bool} :
    ∀ (l : List α), (∀ x ∈ l, q x = true → p x = true) → (l.filter q).Sublist (l.filter p) := by
  intro l
  induction l with
  | nil => intro _; simp
  | cons x l ih =>
      intro h
      have hl := ih (fun y hy => h y (List.mem_cons_of_mem x hy))
      by_cases hq : q x = true
      · have hp := h x (List.mem_cons_self x l) hq
        simpa [List.filter_cons, hq, hp] using hl.cons₂ x
      · by_cases hp : p x = true
        · simpa [List.filter_cons, eq_false_of_ne_true hq, hp] using hl.cons x
        · simpa [List.filter_cons, eq_false_of_ne_true hq, eq_false_of_ne_true hp] using hl

theorem length_filter_lt {p q : α → Bool} (a : α) :
    ∀ {l : List α}, a ∈ l → p a = true → q a = false →
      (∀ x ∈ l, q x = true → p x = true) →
      (l.filter q).length < (l.filter p).length := by
  intro l
  induction l with
  | nil => intro ha; exact absurd ha (List.not_mem_nil a)
  | cons x l ih =>
      intro ha hpa hqa himp
      have himpl : ∀ y ∈ l, q y = true → p y = true :=
        fun y hy => himp y (List.mem_cons_of_mem x hy)
      rcases List.mem_cons.mp ha with ha' | ha'
      · have hle := (filter_sublist_filter l himpl).length_le
        rw [List.filter_cons, List.filter_cons,
          if_pos (show p x = true by rw [← ha']; exact hpa),
          if_neg (show ¬(q x = true) by rw [← ha', hqa]; exact Bool.false_ne_true)]
        simpa using Nat.lt_succ_of_le hle
      · have hlt := ih ha' hpa hqa himpl
        cases hq : q x with
        | true =>
            rw [List.filter_cons, List.filter_cons, if_pos hq,
              if_pos (himp x (List.mem_cons_self x l) hq)]
            simpa using Nat.succ_lt_succ hlt
        | false =>
            cases hp : p x with
            | true =>
                rw [List.filter_cons, List.filter_cons, if_pos hp,
                  if_neg (by rw [hq]; exact Bool.false_ne_true)]
                simpa using Nat.lt_succ_of_lt hlt
            | false =>
                rw [List.filter_cons, List.filter_cons,
                  if_neg (show ¬(q x = true) by rw [hq]; exact Bool.false_ne_true),
                  if_neg (show ¬(p x = true) by rw [hp]; exact Bool.false_ne_true)]
                exact hlt

/-! ### Lemmas: log join and latest-entry selection -/

theorem mem_logsFor {db : DB} {tid : Nat} {e : LogEntry} :
    e ∈ logsFor db tid ↔ e ∈ db.logs ∧ e.task_id = tid := by
  simp [logsFor]

theorem joinedLogs_mem_of {db : DB} {tid : Nat} {e : LogEntry} {n : String}
    (he : e ∈ logsFor db tid) (hr : resolveStatus db e.status_id = some n) :
    (e, n) ∈ joinedLogs db tid := by
  rw [joinedLogs, List.mem_filterMap]
  exact ⟨e, he, by rw [hr]; rfl⟩

theorem of_mem_joinedLogs {db : DB} {tid : Nat} {x : LogEntry × String}
    (hx : x ∈ joinedLogs db tid) :
    x.1 ∈ logsFor db tid ∧ resolveStatus db x.1.status_id = some x.2 := by
  rw [joinedLogs, List.mem_filterMap] at hx
  obtain ⟨e, he, hfe⟩ := hx
  cases hre : resolveStatus db e.status_id with
  | none => rw [hre] at hfe; exact absurd hfe (by simp)
  | some n =>
      rw [hre] at hfe
      have hx1 : x = (e, n) := by simpa using hfe.symm
      rw [hx1]
      exact ⟨he, hre⟩

/-- Core characterization of `get_current_status`: when `e` is the
unique most recent entry of `tid`, the query returns its status name. -/
theorem gcs_eq_of_latest {db : DB} {tid : Nat} {e : LogEntry}
    (hwf : WF db) (he : e ∈ logsFor db tid)
    (hlatest : ∀ x ∈ logsFor db tid, x = e ∨ lexLt x e) :
    get_current_status db tid = (resolveStatus db e.status_id).getD "Pending" := by
  have heL : e ∈ db.logs := (mem_logsFor.mp he).1
  obtain ⟨s, hs, hsid⟩ := hwf.2.2.2.1 e heL
  cases hf : db.statuses.find? (fun x => x.id == e.status_id) with
  | none =>
      exfalso
      rw [List.find?_eq_none] at hf
      exact hf s hs (by simp [hsid])
  | some s' =>
      have hres : resolveStatus db e.status_id = some s'.name := by
        rw [resolveStatus, hf]; rfl
      rw [hres]
      have hpair : (e, s'.name) ∈ joinedLogs db tid := joinedLogs_mem_of he hres
      have htop : topLog? (joinedLogs db tid) = some (e, s'.name) := by
        apply topLog?_eq_some hpair
        intro x hx hne
        obtain ⟨hx1, hx2⟩ := of_mem_joinedLogs hx
        rcases hlatest x.1 hx1 with heq | hlt
        · exfalso
          apply hne
          have hx2' : resolveStatus db e.status_id = some x.2 := by rw [← heq]; exact hx2
          have : x.2 = s'.name := by
            rw [hres] at hx2'
            exact (Option.some.injEq _ _ ▸ hx2').symm ▸ rfl
          calc x = (x.1, x.2) := rfl
          _ = (e, s'.name) := by rw [heq, this]
        · exact hlt
      rw [get_current_status, htop]
      rfl

theorem gcs_empty {db : DB} {tid : Nat} (h : logsFor db tid = []) :
    get_current_status db tid = "Pending" := by
  have : joinedLogs db tid = [] := by rw [joinedLogs, h]; rfl
  rw [get_current_status, this]
  rfl

/-! ### Lemmas: `MAX(id)` per task -/

theorem le_maxLogId {db : DB} {tid : Nat} {e : LogEntry} (he : e ∈ logsFor db tid) :
    e.id ≤ maxLogId db tid :=
  le_foldl_max _ 0 e.id (List.mem_map_of_mem _ he)

theorem maxLogId_mem {db : DB} {tid : Nat} (h : logsFor db tid ≠ []) :
    ∃ e ∈ logsFor db tid, e.id = maxLogId db tid := by
  have hmem := foldl_max_mem ((logsFor db tid).map (fun e => e.id)) 0
  rcases List.mem_cons.mp hmem with h0 | hin
  · obtain ⟨e0, he0⟩ : ∃ e0, e0 ∈ logsFor db tid := by
      cases hl : logsFor db tid with
      | nil => exact absurd hl h
      | cons a l => exact ⟨a, List.mem_cons_self a l⟩
    have hy0 : e0.id ≤ 0 := by
      have h1 := le_foldl_max ((logsFor db tid).map (fun e => e.id)) 0 e0.id
        (List.mem_map_of_mem _ he0)
      rw [h0] at h1
      exact h1
    have hm0 : maxLogId db tid = 0 := h0
    exact ⟨e0, he0, by rw [hm0]; omega⟩
  · obtain ⟨e, he, hid⟩ := List.mem_map.mp hin
    exact ⟨e, he, hid⟩

/-- The `LEFT JOIN task_status_logs tsl ON tsl.id = latest_log.max_id`
always matches, and (ids being unique) the matched entry belongs to the
grouped task. -/
theorem latest_find_of_mem_keys {db : DB} (hwf : WF db) {tid : Nat}
    (h : tid ∈ taskIdsWithLogs db) :
    ∃ e, db.logs.find? (fun x => x.id == maxLogId db tid) = some e ∧
      e.task_id = tid ∧ e ∈ logsFor db tid ∧ e.id = maxLogId db tid := by
  rw [taskIdsWithLogs, List.mem_dedup, List.mem_map] at h
  obtain ⟨e0, he0, ht0⟩ := h
  have hne : logsFor db tid ≠ [] := by
    intro hemp
    have : e0 ∈ logsFor db tid := mem_logsFor.mpr ⟨he0, ht0⟩
    rw [hemp] at this
    exact absurd this (List.not_mem_nil e0)
  obtain ⟨e1, he1, hid1⟩ := maxLogId_mem hne
  have he1L : e1 ∈ db.logs := (mem_logsFor.mp he1).1
  cases hf : db.logs.find? (fun x => x.id == maxLogId db tid) with
  | none =>
      exfalso
      rw [List.find?_eq_none] at hf
      exact hf e1 he1L (by simp [hid1])
  | some e =>
      have hpe := List.find?_some hf
      have hpe' : e.id = maxLogId db tid := by simpa using hpe
      have heL : e ∈ db.logs := List.mem_of_find?_eq_some hf
      have hee1 : e = e1 := by
        apply nodup_key_eq hwf.1 heL he1L
        show e.id = e1.id
        rw [hid1]
        exact hpe'
      refine ⟨e, rfl, ?_, ?_, hpe'⟩
      · rw [hee1]; exact (mem_logsFor.mp he1).2
      · rw [hee1]; exact he1

/-! ### Lemmas: counting over `filterMap` -/

theorem countP_filterMap_congr {f : α → Option β} {p : β → Bool} {q : α → Bool} :
    ∀ {l : List α}, (∀ a ∈ l, ∃ b, f a = some b ∧ p b = q a) →
      (l.filterMap f).countP p = l.countP q := by
  intro l
  induction l with
  | nil => intro _; rfl
  | cons a l ih =>
      intro h
      obtain ⟨b, hb, hpb⟩ := h a (List.mem_cons_self a l)
      rw [List.filterMap_cons, hb, List.countP_cons, List.countP_cons,
        ih (fun y hy => h y (List.mem_cons_of_mem a hy)), hpb]

/-! ### Lemmas: first-occurrence groupby keys -/

theorem mem_catKeysStep_of_mem {acc : List Nat} {c : Nat} (y : TaskRow) (h : c ∈ acc) :
    c ∈ catKeysStep acc y := by
  rw [catKeysStep]
  cases y.category_id with
  | none => exact h
  | some d =>
      show c ∈ (if acc.contains d then acc else acc ++ [d])
      by_cases hd : acc.contains d
      · rw [if_pos hd]; exact h
      · rw [if_neg hd]; exact List.mem_append_left [d] h

theorem mem_catKeysStep_self {acc : List Nat} {c : Nat} {y : TaskRow}
    (hy : y.category_id = some c) : c ∈ catKeysStep acc y := by
  rw [catKeysStep, hy]
  show c ∈ (if acc.contains c then acc else acc ++ [c])
  by_cases hd : acc.contains c
  · rw [if_pos hd]
    exact List.mem_of_elem_eq_true hd
  · rw [if_neg hd]
    exact List.mem_append_right acc (List.mem_cons_self c [])

theorem mem_catKeys_of {l : List TaskRow} {r : TaskRow} {c : Nat}
    (hr : r ∈ l) (hc : r.category_id = some c) : c ∈ catKeys l := by
  have aux : ∀ (m : List TaskRow) (acc : List Nat),
      (c ∈ acc ∨ ∃ x ∈ m, x.category_id = some c) →
      c ∈ m.foldl catKeysStep acc := by
    intro m
    induction m with
    | nil =>
        intro acc h
        rcases h with h | ⟨x, hx, _⟩
        · exact h
        · exact absurd hx (List.not_mem_nil x)
    | cons y m ih =>
        intro acc h
        show c ∈ m.foldl catKeysStep (catKeysStep acc y)
        apply ih
        rcases h with hacc | ⟨x, hxm, hxc⟩
        · exact Or.inl (mem_catKeysStep_of_mem y hacc)
        · rcases List.mem_cons.mp hxm with hxy | hxm'
          · exact Or.inl (mem_catKeysStep_self (hxy ▸ hxc))
          · exact Or.inr ⟨x, hxm', hxc⟩
  exact aux l [] (Or.inr ⟨r, hr, hc⟩)

/-! ### Lemmas: `fetch_task_tree` structure -/

theorem categoryFiltered_sublist (db : DB) (catF : Option (List Nat)) :
    (categoryFiltered db catF).Sublist db.tasks := by
  cases catF with
  | none => exact List.Sublist.refl db.tasks
  | some ids =>
      show (if ids.isEmpty then db.tasks
        else db.tasks.filter (fun t => ids.any (fun c => t.category_id == some c))).Sublist db.tasks
      by_cases h : ids.isEmpty
      · rw [if_pos h]
      · rw [if_neg h]
        exact List.filter_sublist _

theorem fetch_false_eq_filter (db : DB) (catF : Option (List Nat)) :
    fetch_task_tree db catF false =
      (fetch_task_tree db catF true).filter
        (fun r => !(r.current_status == "Completed") && !(r.current_status == "Cancelled")) :=
  rfl

theorem exists_row_of_task (db : DB) (catF : Option (List Nat)) {t : Task}
    (ht : t ∈ categoryFiltered db catF) :
    ∃ r ∈ rowsWithCounts db catF, r.id = t.id ∧ r.parent_id = t.parent_id ∧
      r.category_id = t.category_id ∧ r.current_status = get_current_status db t.id := by
  have h1 : t ∈ sortOrd (fun a b => a.id < b.id) (categoryFiltered db catF) :=
    mem_sortOrd.mpr ht
  have h2 := List.mem_map_of_mem (toTaskRow db) h1
  have h3 := List.mem_map_of_mem
    (fun (r : TaskRow) => { r with current_status := get_current_status db r.id }) h2
  have h4 := List.mem_map_of_mem
    (fun (r : TaskRow) => { r with
      num_subtasks :=
        (rowsWithStatus db catF).countP (fun (x : TaskRow) => x.parent_id == some r.id) }) h3
  refine ⟨_, h4, ?_, ?_, ?_, ?_⟩ <;> rfl

theorem of_mem_rowsWithCounts {db : DB} {catF : Option (List Nat)} {r : TaskRow}
    (hr : r ∈ rowsWithCounts db catF) :
    ∃ t ∈ categoryFiltered db catF, r.id = t.id ∧ r.parent_id = t.parent_id ∧
      r.category_id = t.category_id ∧ r.current_status = get_current_status db t.id := by
  obtain ⟨r1, hr1, hre⟩ := List.mem_map.mp hr
  obtain ⟨r0, hr0, hr0e⟩ := List.mem_map.mp hr1
  obtain ⟨t, ht, hte⟩ := List.mem_map.mp hr0
  refine ⟨t, mem_sortOrd.mp ht, ?_, ?_, ?_, ?_⟩ <;> (rw [← hre, ← hr0e, ← hte]; rfl)

theorem rowsWithCounts_ids (db : DB) (catF : Option (List Nat)) :
    (rowsWithCounts db catF).map (fun r => r.id) =
      (sortOrd (fun a b => a.id < b.id) (categoryFiltered db catF)).map (fun t => t.id) := by
  rw [rowsWithCounts, rowsWithStatus, baseRows, List.map_map, List.map_map, List.map_map]
  rfl

theorem rows_ids_nodup {db : DB} (catF : Option (List Nat)) (hwf : WF db) :
    ((rowsWithCounts db catF).map (fun r => r.id)).Nodup := by
  rw [rowsWithCounts_ids]
  have h1 : ((categoryFiltered db catF).map (fun t => t.id)).Nodup :=
    List.Nodup.sublist ((categoryFiltered_sublist db catF).map _) hwf.2.1
  exact (List.Perm.nodup_iff ((perm_sortOrd _ _).map _)).mpr h1

/-- C1: `get_current_status` returns `"Pending"` for a task with no log
entries, and otherwise the status name of the entry with the maximum
`(timestamp, id)` pair, id breaking timestamp ties. -/
theorem get_current_status_spec (db : DB) (tid : Nat) (hwf : WF db) :
    (logsFor db tid = [] → get_current_status db tid = "Pending") ∧
    (∀ e ∈ logsFor db tid, IsLatest db tid e →
      get_current_status db tid = (resolveStatus db e.status_id).getD "Pending") := by
  constructor
  · exact gcs_empty
  · intro e he hl
    exact gcs_eq_of_latest hwf he hl

/-- C1 witness: in `dbPair`, entry 1 is the sole (hence latest) entry of
task 1 and the query returns its status name, `In Progress`. -/
theorem get_current_status_spec_witness :
    WF dbPair ∧ get_current_status dbPair 1 = (resolveStatus dbPair 2).getD "Pending" :=
  ⟨by decide, (get_current_status_spec dbPair 1 (by decide)).2
    { id := 1, task_id := 1, status_id := 2, reason := none, extra_info := none, timestamp := 10 }
    (by decide) (by decide)⟩

/-- C4 counterexample: in `dbPair` with `show_completed = False`, the
returned result contains only task 1, whose `num_subtasks` is 1, yet no
row of that same returned result has `parent_id = 1` (the completed
subtask was dropped after the count was taken). -/
theorem num_subtasks_counterexample :
    ∃ r ∈ fetch_task_tree dbPair none false,
      r.num_subtasks ≠
        (fetch_task_tree dbPair none false).countP (fun x => x.parent_id == some r.id) := by
  decide

/-- C4 (amended): `num_subtasks` counts the rows whose `parent_id`
matches over the category-filtered row set *before* the completion
filter — i.e. over the `show_completed = True` result — for both values
of `show_completed`. -/
theorem num_subtasks_prefilter_spec (db : DB) (catF : Option (List Nat)) (sc : Bool) :
    ∀ r ∈ fetch_task_tree db catF sc,
      r.num_subtasks =
        (fetch_task_tree db catF true).countP (fun x => x.parent_id == some r.id) := by
  intro r hr
  have hr' : r ∈ rowsWithCounts db catF := by
    cases sc
    · exact (List.mem_filter.mp hr).1
    · exact hr
  obtain ⟨r1, hr1, hreq⟩ := List.mem_map.mp hr'
  have hid : r.id = r1.id := by rw [← hreq]
  have hnum : r.num_subtasks =
      (rowsWithStatus db catF).countP (fun x => x.parent_id == some r1.id) := by
    rw [← hreq]
  have hcount : (fetch_task_tree db catF true).countP (fun x => x.parent_id == some r.id)
      = (rowsWithStatus db catF).countP (fun x => x.parent_id == some r.id) := by
    show (rowsWithCounts db catF).countP _ = _
    rw [rowsWithCounts, List.countP_map]
    rfl
  rw [hcount, hid]
  exact hnum

/-- C4 witness: the amended count identity at the single row that
`fetch_task_tree dbPair none false` returns (task 1, whose
`num_subtasks` of 1 counts the completed subtask of the unfiltered
row set). -/
theorem num_subtasks_prefilter_spec_witness :
    ({ id := 1, title := "parent", description := none, due_date := none,
       parent_id := none, category_id := none, category_name := none,
       priority_level := none, threat_level := none,
       current_status := "In Progress", num_subtasks := 1 } : TaskRow)
      ∈ fetch_task_tree dbPair none false ∧
    (1 : Nat) =
      (fetch_task_tree dbPair none true).countP (fun x => x.parent_id == some 1) :=
  ⟨by decide, num_subtasks_prefilter_spec dbPair none false
    { id := 1, title := "parent", description := none, due_date := none,
      parent_id := none, category_id := none, category_name := none,
      priority_level := none, threat_level := none,
      current_status := "In Progress", num_subtasks := 1 }
    (by decide)⟩

/-- C5: with `show_completed = False` no returned row has derived status
`Completed` or `Cancelled`; with `show_completed = True` (and no
category restriction) every task of the store appears as a row. -/
theorem fetch_task_tree_completion_spec (db : DB) :
    (∀ catF, ∀ r ∈ fetch_task_tree db catF false,
        r.current_status ≠ "Completed" ∧ r.current_status ≠ "Cancelled") ∧
    (∀ t ∈ db.tasks, ∃ r ∈ fetch_task_tree db none true, r.id = t.id) := by
  constructor
  · intro catF r hr
    have h := (List.mem_filter.mp hr).2
    constructor <;> intro heq <;> rw [heq] at h <;> simp at h
  · intro t ht
    obtain ⟨r, hr, hid, _⟩ :=
      exists_row_of_task db none (show t ∈ categoryFiltered db none from ht)
    exact ⟨r, hr, hid⟩

/-- C5 witness: in `dbPair` the filtered view omits completed rows while
the unfiltered view contains every task. -/
theorem fetch_task_tree_completion_spec_witness :
    (∀ catF, ∀ r ∈ fetch_task_tree dbPair catF false,
        r.current_status ≠ "Completed" ∧ r.current_status ≠ "Cancelled") ∧
    (∀ t ∈ dbPair.tasks, ∃ r ∈ fetch_task_tree dbPair none true, r.id = t.id) :=
  fetch_task_tree_completion_spec dbPair

/-- C2 counterexample: rendering `dbPair` (two tasks) via
`fetch_task_tree` costs three round trips — the base query plus one
`get_current_status` query per task row — not one batched round trip. -/
theorem fetch_status_not_batched_counterexample :
    dbPair.tasks.length = 2 ∧
    fetch_task_tree_roundTrips dbPair none = 3 ∧
    fetch_task_tree_roundTrips dbPair none ≠ 1 := by
  decide

/-- C2 (amended): the `latest_status` CTE of
`build_task_hierarchy_for_tree` is a genuine batched mapping — exactly
one entry per task id, `"Pending"` for tasks with no log — in a single
round trip, but `fetch_task_tree` derives `current_status` with one
`get_current_status` query per base row on top of its own query. -/
theorem bulk_status_mapping_spec (db : DB) (hwf : WF db) :
    (∀ t ∈ db.tasks,
      (latest_status_rows db).countP (fun p => p.1 == t.id) = 1 ∧
      ((logsFor db t.id).isEmpty = true → (t.id, "Pending") ∈ latest_status_rows db)) ∧
    (∀ catF, fetch_task_tree_roundTrips db catF =
      1 + (baseRows db catF).length * get_current_status_roundTrips) ∧
    build_task_hierarchy_roundTrips = 1 := by
  refine ⟨?_, ?_, rfl⟩
  · intro t ht
    constructor
    · rw [latest_status_rows, List.countP_append]
      have hA : ((taskIdsWithLogs db).filterMap
            (fun tid => (db.logs.find? (fun e => e.id == maxLogId db tid)).map
              (fun e => (e.task_id, (resolveStatus db e.status_id).getD "Pending")))).countP
            (fun p => p.1 == t.id)
          = (taskIdsWithLogs db).countP (fun k => k == t.id) := by
        apply countP_filterMap_congr
        intro k hk
        obtain ⟨e, hf, hetid, _, _⟩ := latest_find_of_mem_keys hwf hk
        refine ⟨(e.task_id, (resolveStatus db e.status_id).getD "Pending"), ?_, ?_⟩
        · rw [hf]; rfl
        · show (e.task_id == t.id) = (k == t.id)
          rw [hetid]
      have hB : ((db.tasks.filter (fun x => (logsFor db x.id).isEmpty)).map
            (fun x => (x.id, "Pending"))).countP (fun p => p.1 == t.id)
          = (db.tasks.filter (fun x => (logsFor db x.id).isEmpty)).countP
            (fun x => x.id == t.id) := by
        rw [List.countP_map]
        rfl
      rw [hA, hB]
      by_cases hlog : (logsFor db t.id).isEmpty = true
      · have h1 : (taskIdsWithLogs db).countP (fun k => k == t.id) = 0 := by
          rw [List.countP_eq_zero]
          intro k hk hkt
          have hk' : k = t.id := by simpa using hkt
          subst hk'
          obtain ⟨e, _, _, heIn, _⟩ := latest_find_of_mem_keys hwf hk
          rw [List.isEmpty_iff] at hlog
          rw [hlog] at heIn
          exact absurd heIn (List.not_mem_nil e)
        have h2 : (db.tasks.filter (fun x => (logsFor db x.id).isEmpty)).countP
            (fun x => x.id == t.id) = 1 := by
          have hmemF : t ∈ db.tasks.filter (fun x => (logsFor db x.id).isEmpty) :=
            List.mem_filter.mpr ⟨ht, hlog⟩
          have hnd : ((db.tasks.filter (fun x => (logsFor db x.id).isEmpty)).map
              (fun x => x.id)).Nodup :=
            List.Nodup.sublist ((List.filter_sublist _).map _) hwf.2.1
          exact countP_key_of_mem hnd hmemF
        rw [h1, h2]
      · have hne : logsFor db t.id ≠ [] := by
          intro h0
          rw [h0] at hlog
          exact hlog rfl
        have hkmem : t.id ∈ taskIdsWithLogs db := by
          obtain ⟨e0, he0⟩ : ∃ e0, e0 ∈ logsFor db t.id := by
            cases hl : logsFor db t.id with
            | nil => exact absurd hl hne
            | cons a l => exact ⟨a, List.mem_cons_self a l⟩
          rw [taskIdsWithLogs, List.mem_dedup, List.mem_map]
          exact ⟨e0, (mem_logsFor.mp he0).1, (mem_logsFor.mp he0).2⟩
        have h1 : (taskIdsWithLogs db).countP (fun k => k == t.id) = 1 := by
          rw [← List.count_eq_countP]
          exact List.count_eq_one_of_mem (List.nodup_dedup _) hkmem
        have h2 : (db.tasks.filter (fun x => (logsFor db x.id).isEmpty)).countP
            (fun x => x.id == t.id) = 0 := by
          rw [List.countP_eq_zero]
          intro x hx hxt
          have hx' : x.id = t.id := by simpa using hxt
          have hxe : (logsFor db x.id).isEmpty = true := (List.mem_filter.mp hx).2
          rw [hx'] at hxe
          exact hlog hxe
        rw [h1, h2]
    · intro hlog
      refine List.mem_append.mpr (Or.inr ?_)
      exact List.mem_map_of_mem _ (List.mem_filter.mpr ⟨ht, hlog⟩)
  · intro catF
    rw [fetch_task_tree_roundTrips]
    by_cases h : (baseRows db catF).isEmpty = true
    · rw [if_pos h]
      rw [List.isEmpty_iff] at h
      rw [h]
      rfl
    · rw [if_neg h]

/-- C2 witness: the batched-mapping properties instantiated in `dbPair`. -/
theorem bulk_status_mapping_spec_witness :
    WF dbPair ∧
    ((∀ t ∈ dbPair.tasks,
      (latest_status_rows dbPair).countP (fun p => p.1 == t.id) = 1 ∧
      ((logsFor dbPair t.id).isEmpty = true → (t.id, "Pending") ∈ latest_status_rows dbPair)) ∧
    (∀ catF, fetch_task_tree_roundTrips dbPair catF =
      1 + (baseRows dbPair catF).length * get_current_status_roundTrips) ∧
    build_task_hierarchy_roundTrips = 1) :=
  ⟨by decide, bulk_status_mapping_spec dbPair (by decide)⟩

/-! ### Lemmas: status-name resolution round trip -/

theorem resolve_of_statusIdOf {db : DB} (hwf : WF db) {name : String} {sid : Nat}
    (h : statusIdOf db name = some sid) : resolveStatus db sid = some name := by
  rw [statusIdOf] at h
  cases hf : db.statuses.find? (fun s => s.name == name) with
  | none => rw [hf] at h; exact absurd h (by simp)
  | some s =>
      rw [hf] at h
      have hsid : s.id = sid := by simpa using h
      have hsname : s.name = name := by simpa using List.find?_some hf
      have hsmem := List.mem_of_find?_eq_some hf
      rw [resolveStatus]
      cases hg : db.statuses.find? (fun x => x.id == sid) with
      | none =>
          exfalso
          rw [List.find?_eq_none] at hg
          exact hg s hsmem (by simp [hsid])
      | some s' =>
          have hs'id : s'.id = sid := by simpa using List.find?_some hg
          have hs'mem := List.mem_of_find?_eq_some hg
          have hss : s' = s := nodup_key_eq hwf.2.2.1 hs'mem hsmem (by rw [hs'id, hsid])
          rw [hss]
          show some s.name = some name
          rw [hsname]

/-- C3 counterexample: after the first commit of the task-creation flow
(`insert_task` on a fresh store), the task row is persisted while its
status log is still empty — `get_current_status` on that committed
state returns `"Pending"`, so row and initial entry are not persisted
as one atomic operation. -/
theorem insert_task_intermediate_counterexample :
    ((insert_task dbEmpty "Standup" none none none none none none).1.tasks.map
      (fun t => t.id)) = [1] ∧
    logsFor (insert_task dbEmpty "Standup" none none none none none none).1 1 = [] ∧
    get_current_status (insert_task dbEmpty "Standup" none none none none none none).1 1
      = "Pending" := by
  decide

/-- C3 (amended): the creation flow runs two separately committed
statements — insert the row, then insert the `"Not Started"` entry;
once both commits complete the fresh task has exactly one log entry and
`get_current_status` returns `"Not Started"`, but between the commits
the row exists with no entry. -/
theorem new_main_task_spec (db : DB) (hwf : WF db) (title : String)
    (description : Option String) (due cat pri thr : Option Nat)
    (hres : (statusIdOf db "Not Started").isSome = true) :
    ∃ p : DB × Nat, new_main_task db title description due cat pri thr = some p ∧
      (logsFor p.1 p.2).length = 1 ∧ get_current_status p.1 p.2 = "Not Started" := by
  obtain ⟨sid, hsid⟩ := Option.isSome_iff_exists.mp hres
  have hresolve : resolveStatus db sid = some "Not Started" := resolve_of_statusIdOf hwf hsid
  have hfresh : ∀ x ∈ db.logs, x.task_id ≠ newTaskId db := by
    intro x hx
    obtain ⟨t', ht', hteq⟩ := hwf.2.2.2.2 x hx
    have : t'.id ≤ (db.tasks.map (fun t => t.id)).foldl Nat.max 0 :=
      le_foldl_max _ 0 t'.id (List.mem_map_of_mem _ ht')
    rw [hteq] at this
    rw [newTaskId]
    omega
  set db1 := (insert_task db title description due none cat pri thr).1
  set tid := newTaskId db
  set e : LogEntry :=
    { id := newLogId db1, task_id := tid, status_id := sid,
      reason := none, extra_info := none, timestamp := db1.now }
  set db2 : DB := { db1 with logs := db1.logs ++ [e], now := db1.now + 1 }
  have hsid1 : statusIdOf db1 "Not Started" = some sid := hsid
  have hins : insert_status_log db1 tid "Not Started" none none = some db2 := by
    rw [insert_status_log, hsid1]
  have hlogsFor : logsFor db2 tid = [e] := by
    show (db1.logs ++ [e]).filter (fun x => x.task_id == tid) = [e]
    rw [List.filter_append]
    have h1 : db1.logs.filter (fun x => x.task_id == tid) = [] := by
      rw [List.filter_eq_nil_iff]
      intro x hx
      simpa using hfresh x hx
    have h2 : ([e].filter (fun x => x.task_id == tid)) = [e] := by
      simp
    rw [h1, h2]
    rfl
  refine ⟨(db2, tid), ?_, ?_, ?_⟩
  · show (insert_status_log db1 tid "Not Started" none none).map (fun d => (d, tid)) = _
    rw [hins]
    rfl
  · show (logsFor db2 tid).length = 1
    rw [hlogsFor]
    rfl
  · show get_current_status db2 tid = "Not Started"
    have hresolve2 : resolveStatus db2 sid = some "Not Started" := hresolve
    have hfe : (resolveStatus db2 e.status_id).map (fun n => (e, n))
        = some (e, "Not Started") := by
      rw [show resolveStatus db2 e.status_id = some "Not Started" from hresolve2]
      rfl
    have hjoined : joinedLogs db2 tid = [(e, "Not Started")] := by
      rw [joinedLogs, hlogsFor, List.filterMap_cons, hfe]
      rfl
    rw [get_current_status, hjoined]
    rfl

/-- C3 witness: the amended creation postcondition on a fresh store. -/
theorem new_main_task_spec_witness :
    (WF dbEmpty ∧ (statusIdOf dbEmpty "Not Started").isSome = true) ∧
    (∃ p : DB × Nat, new_main_task dbEmpty "Standup" none none none none none = some p ∧
      (logsFor p.1 p.2).length = 1 ∧ get_current_status p.1 p.2 = "Not Started") :=
  ⟨⟨by decide, by decide⟩,
    new_main_task_spec dbEmpty (by decide) "Standup" none none none none none (by decide)⟩

/-- C7: without a store error, `delete_category` re-parents the deleted
category's children to `NULL`, un-categorizes its tasks, and removes
the row, reporting success; a store error at any of the three
statements rolls the whole transaction back to the original state and
reports failure. -/
theorem delete_category_spec (db : DB) (cid : Nat) :
    ((delete_category db cid none).1 = true ∧
     (∀ c ∈ (delete_category db cid none).2.2.categories,
        c.parent_id ≠ some cid ∧ c.id ≠ cid) ∧
     (∀ t ∈ (delete_category db cid none).2.2.tasks, t.category_id ≠ some cid)) ∧
    (∀ k : Fin 3, delete_category db cid (some k) = (false, "Database error", db)) := by
  refine ⟨⟨rfl, ?_, ?_⟩, fun k => rfl⟩
  · intro c hc
    have hc1 := List.mem_filter.mp hc
    obtain ⟨c0, _, hc0e⟩ := List.mem_map.mp hc1.1
    constructor
    · rw [← hc0e]
      by_cases h0 : c0.parent_id == some cid
      · rw [if_pos h0]
        intro hcontra
        exact absurd hcontra (by simp)
      · rw [if_neg h0]
        intro hcontra
        exact h0 (by simp [hcontra])
    · intro hceq
      have := hc1.2
      rw [hceq] at this
      simp at this
  · intro t ht
    obtain ⟨t0, _, ht0e⟩ := List.mem_map.mp ht
    rw [← ht0e]
    by_cases h0 : t0.category_id == some cid
    · rw [if_pos h0]
      intro hcontra
      exact absurd hcontra (by simp)
    · rw [if_neg h0]
      intro hcontra
      exact h0 (by simp [hcontra])

/-- C7 witness: deleting category 1 of `dbExport` succeeds with the
stated postconditions, and every simulated failure returns the original
state. -/
theorem delete_category_spec_witness :
    ((delete_category dbExport 1 none).1 = true ∧
     (∀ c ∈ (delete_category dbExport 1 none).2.2.categories,
        c.parent_id ≠ some 1 ∧ c.id ≠ 1) ∧
     (∀ t ∈ (delete_category dbExport 1 none).2.2.tasks, t.category_id ≠ some 1)) ∧
    (∀ k : Fin 3, delete_category dbExport 1 (some k) = (false, "Database error", dbExport)) :=
  delete_category_spec dbExport 1

/-- C8 counterexample: in `dbTie` both entries of task 1 share
timestamp 5; entry 2 (reason `second`) has the maximum `(timestamp,
id)` — consistently, `get_current_status` returns its status
`Completed` — yet `fetch_status_history` lists the id-1 row first, so
the history is not ordered by `(timestamp, id)`. -/
theorem fetch_status_history_tiebreak_counterexample :
    ((fetch_status_history dbTie 1).map (fun r => r.reason))
      = [some "first", some "second"] ∧
    IsLatest dbTie 1
      { id := 2, task_id := 1, status_id := 5, reason := some "second",
        extra_info := none, timestamp := 5 } ∧
    get_current_status dbTie 1 = "Completed" ∧
    (fetch_status_history dbTie 1).head? ≠
      some { timestamp := 5, status := "Completed", reason := some "second",
             extra_info := none } := by
  decide

/-- C8 (amended): `fetch_status_history` returns exactly the joined log
rows of the task (timestamp, status name, reason, extra info), sorted
by timestamp non-increasing only; entries with equal timestamps keep
their scan order, with no id tie-break. -/
theorem fetch_status_history_spec (db : DB) (tid : Nat) :
    (fetch_status_history db tid).Perm ((joinedLogs db tid).map toHistoryRow) ∧
    (fetch_status_history db tid).Pairwise (fun a b => b.timestamp ≤ a.timestamp) := by
  constructor
  · exact perm_sortOrd _ _
  · apply pairwise_sortOrd
    · intro a b c h1 h2
      exact Nat.le_trans h2 h1
    · intro a b h
      have : b.timestamp < a.timestamp := by simpa using h
      exact Nat.le_of_lt this
    · intro a b h
      have : ¬(b.timestamp < a.timestamp) := by simpa using h
      omega

/-! ### Lemmas: category path resolution -/

theorem unvisited_decrease {cats : List Category} {c : Category} {cid : Nat} {v : List Nat}
    (hcs : c ∈ cats) (hcid : c.id = cid) (hv : v.contains cid = false) :
    unvisitedCount cats (cid :: v) < unvisitedCount cats v := by
  apply length_filter_lt c hcs
  · rw [hcid, hv]; rfl
  · rw [hcid]; simp
  · intro x hx hq
    simp only [Bool.not_eq_true'] at hq ⊢
    simp only [List.contains_cons, Bool.or_eq_false_iff] at hq
    exact hq.2

theorem gfp_ne_none (cats : List Category) :
    ∀ (fuel : Nat) (visited : List Nat) (oc : Option Nat),
      unvisitedCount cats visited < fuel →
      get_full_path cats fuel oc visited ≠ none := by
  intro fuel
  induction fuel with
  | zero => intro v oc h; exact absurd h (Nat.not_lt_zero _)
  | succ fuel ih =>
      intro v oc h
      cases oc with
      | none => simp [get_full_path]
      | some cid =>
          show (match lookupCat cats cid with
            | none => some ""
            | some c =>
                if v.contains cid then some cycleMarker
                else
                  match get_full_path cats fuel c.parent_id (cid :: v) with
                  | none => none
                  | some pp =>
                      some (if pp == "" then c.name else pp ++ " > " ++ c.name)) ≠ none
          cases hl : lookupCat cats cid with
          | none => simp
          | some c =>
              show (if v.contains cid then some cycleMarker
                else
                  match get_full_path cats fuel c.parent_id (cid :: v) with
                  | none => none
                  | some pp =>
                      some (if pp == "" then c.name else pp ++ " > " ++ c.name)) ≠ none
              by_cases hv : v.contains cid
              · rw [if_pos hv]; simp
              · rw [if_neg hv]
                have hvf : v.contains cid = false := by
                  revert hv; cases v.contains cid <;> simp
                have hcs : c ∈ cats := List.mem_of_find?_eq_some hl
                have hcid : c.id = cid := by simpa using List.find?_some hl
                have hdec : unvisitedCount cats (cid :: v) < fuel := by
                  have := unvisited_decrease hcs hcid hvf
                  omega
                cases hrec : get_full_path cats fuel c.parent_id (cid :: v) with
                | none => exact absurd hrec (ih (cid :: v) c.parent_id hdec)
                | some pp => simp

theorem chain_shift (cats : List Category) {c p : Nat} (h : chain cats c 1 = some p) :
    ∀ n, chain cats c (n + 1) = chain cats p n := by
  intro n
  induction n with
  | zero => simpa using h
  | succ n ih =>
      show chainStep cats (chain cats c (n + 1)) = chainStep cats (chain cats p n)
      rw [ih]

theorem cycleFrom_shift {cats : List Category} {c p : Nat}
    (hcyc : CycleFrom cats c) (h : chain cats c 1 = some p) : CycleFrom cats p := by
  intro n
  have h1 := hcyc (n + 1)
  rw [chain_shift cats h n] at h1
  exact h1

theorem marker_data_ne_nil : cycleMarker.data ≠ [] := by decide

theorem gfp_cycle_marker (cats : List Category) :
    ∀ (fuel : Nat) (visited : List Nat) (c : Nat),
      CycleFrom cats c → unvisitedCount cats visited < fuel →
      ∃ r, get_full_path cats fuel (some c) visited = some r ∧
        cycleMarker.data <:+: r.data := by
  intro fuel
  induction fuel with
  | zero => intro v c _ h; exact absurd h (Nat.not_lt_zero _)
  | succ fuel ih =>
      intro v c hcyc h
      obtain ⟨j0, hj0, hl0⟩ := hcyc 0
      have hj0' : j0 = c := by
        have : some c = some j0 := hj0
        exact (Option.some.injEq _ _ ▸ this).symm ▸ rfl
      subst hj0'
      show ∃ r, (match lookupCat cats j0 with
        | none => some ""
        | some c =>
            if v.contains j0 then some cycleMarker
            else
              match get_full_path cats fuel c.parent_id (j0 :: v) with
              | none => none
              | some pp =>
                  some (if pp == "" then c.name else pp ++ " > " ++ c.name)) = some r ∧
        cycleMarker.data <:+: r.data
      cases hl : lookupCat cats j0 with
      | none =>
          rw [hl] at hl0
          exact absurd hl0 (by simp)
      | some cc =>
          show ∃ r, (if v.contains j0 then some cycleMarker
            else
              match get_full_path cats fuel cc.parent_id (j0 :: v) with
              | none => none
              | some pp =>
                  some (if pp == "" then cc.name else pp ++ " > " ++ cc.name)) = some r ∧
            cycleMarker.data <:+: r.data
          by_cases hv : v.contains j0
          · rw [if_pos hv]
            exact ⟨cycleMarker, rfl, List.infix_refl _⟩
          · rw [if_neg hv]
            have hvf : v.contains j0 = false := by
              revert hv; cases v.contains j0 <;> simp
            obtain ⟨p, hp, hlp⟩ := hcyc 1
            have hp' : cc.parent_id = some p := by
              have hc1 : chain cats j0 1 = cc.parent_id := by
                show chainStep cats (chain cats j0 0) = cc.parent_id
                show chainStep cats (some j0) = cc.parent_id
                show (lookupCat cats j0).bind (fun x => x.parent_id) = cc.parent_id
                rw [hl]
                rfl
              rw [← hc1, hp]
            have hcycp : CycleFrom cats p := cycleFrom_shift hcyc hp
            have hcs : cc ∈ cats := List.mem_of_find?_eq_some hl
            have hcid : cc.id = j0 := by simpa using List.find?_some hl
            have hdec : unvisitedCount cats (j0 :: v) < fuel := by
              have := unvisited_decrease hcs hcid hvf
              omega
            obtain ⟨r', hr', hinf⟩ := ih (j0 :: v) p hcycp hdec
            rw [hp', hr']
            have hr'ne : ¬(r' == "") := by
              intro hbe
              have hre : r' = "" := by simpa using hbe
              rw [hre] at hinf
              obtain ⟨s, t, hst⟩ := hinf
              have : cycleMarker.data = [] := by
                have hlen := congrArg List.length hst
                simp at hlen
                exact List.length_eq_zero.mp hlen.2.1
              exact marker_data_ne_nil this
            refine ⟨r' ++ " > " ++ cc.name, ?_, ?_⟩
            · show some (if r' == "" then cc.name else r' ++ " > " ++ cc.name)
                = some (r' ++ " > " ++ cc.name)
              rw [if_neg hr'ne]
            · obtain ⟨s, t, hst⟩ := hinf
              refine ⟨s, t ++ (" > ".data ++ cc.name.data), ?_⟩
              rw [String.data_append, String.data_append, ← hst]
              simp [List.append_assoc]

/-- C6: category path resolution terminates for every category — fuel
`cats.length + 1` (one stack frame per distinct unvisited id) is always
enough — and when a category's ancestry is cyclic, the branch stops at
the revisited id and the resolved path contains the `"... (cycle)"`
marker. -/
theorem get_full_path_cycle_spec (cats : List Category) (cid : Nat)
    (hcyc : CycleFrom cats cid) :
    (∀ c : Nat, get_full_path cats (cats.length + 1) (some c) [] ≠ none) ∧
    (∃ r, get_full_path cats (cats.length + 1) (some cid) [] = some r ∧
      cycleMarker.data <:+: r.data) := by
  have hbound : unvisitedCount cats [] ≤ cats.length := List.length_filter_le _ _
  constructor
  · intro c
    exact gfp_ne_none cats (cats.length + 1) [] (some c) (by omega)
  · exact gfp_cycle_marker cats (cats.length + 1) [] cid hcyc (by omega)

/-- C6 witness: the self-parenting category of `catsLoop` has a cyclic
ancestry; resolution terminates and its path contains the marker. -/
theorem get_full_path_cycle_spec_witness :
    CycleFrom catsLoop 1 ∧
    ((∀ c : Nat, get_full_path catsLoop (catsLoop.length + 1) (some c) [] ≠ none) ∧
     (∃ r, get_full_path catsLoop (catsLoop.length + 1) (some 1) [] = some r ∧
        cycleMarker.data <:+: r.data)) := by
  have hchain : ∀ n, chain catsLoop 1 n = some 1 := by
    intro n
    induction n with
    | zero => rfl
    | succ n ih =>
        show chainStep catsLoop (chain catsLoop 1 n) = some 1
        rw [ih]
        rfl
  have hcyc : CycleFrom catsLoop 1 := fun n => ⟨1, hchain n, rfl⟩
  exact ⟨hcyc, get_full_path_cycle_spec catsLoop 1 hcyc⟩

/-! ### Lemmas: the two current-status derivations -/

theorem find?_key_filterMap {f : Nat → Option (Nat × String)} :
    ∀ {ks : List Nat} {tid : Nat},
      (∀ k ∈ ks, ∃ v, f k = some (k, v)) → tid ∈ ks →
      ∃ v, (ks.filterMap f).find? (fun p => p.1 == tid) = some (tid, v) ∧
        f tid = some (tid, v) := by
  intro ks
  induction ks with
  | nil => intro tid _ hmem; exact absurd hmem (List.not_mem_nil tid)
  | cons k ks ih =>
      intro tid h hmem
      obtain ⟨v, hv⟩ := h k (List.mem_cons_self k ks)
      rw [List.filterMap_cons, hv]
      show ∃ v1, ((k, v) :: ks.filterMap f).find? (fun p => p.1 == tid) = some (tid, v1) ∧
        f tid = some (tid, v1)
      by_cases hk : k = tid
      · subst hk
        refine ⟨v, ?_, hv⟩
        have hp : ((fun (p : Nat × String) => p.1 == k) (k, v)) = true := by simp
        rw [List.find?_cons_of_pos (ks.filterMap f) hp]
      · rcases List.mem_cons.mp hmem with hmt | hmt
        · exact absurd hmt.symm hk
        · have hp : ¬(((fun (p : Nat × String) => p.1 == tid) (k, v)) = true) := by simp [hk]
          rw [List.find?_cons_of_neg (ks.filterMap f) hp]
          exact ih (fun y hy => h y (List.mem_cons_of_mem k hy)) hmt

theorem partB_find_pending {db : DB} {tid : Nat} {pr : Nat × String}
    (h : ((db.tasks.filter (fun x => (logsFor db x.id).isEmpty)).map
        (fun x => (x.id, "Pending"))).find? (fun p => p.1 == tid) = some pr) :
    pr.2 = "Pending" := by
  have hmem := List.mem_of_find?_eq_some h
  rw [List.mem_map] at hmem
  obtain ⟨x, _, hxe⟩ := hmem
  rw [← hxe]

/-- C10 counterexample: in `dbSkew`, entry 2 has the larger id but the
smaller timestamp; the `latest_status` CTE (max id) yields `Completed`
while `get_current_status` (max `(timestamp, id)`) yields
`In Progress` — the two derivations disagree, under retrograde
timestamps. -/
theorem tree_status_counterexample :
    treeStatusOf dbSkew 1 = "Completed" ∧
    get_current_status dbSkew 1 = "In Progress" ∧
    treeStatusOf dbSkew 1 ≠ get_current_status dbSkew 1 ∧
    ¬ TsMonotone dbSkew := by
  decide

/-- C10 (amended): whenever each task's log timestamps are nondecreasing
in entry id (the append-only insert pattern with a non-retrograde
clock), the `latest_status` CTE of `build_task_hierarchy_for_tree`
(maximum id, `Pending` default) agrees with `get_current_status`
(maximum `(timestamp, id)`, `Pending` default) on every task. -/
theorem tree_status_refines_spec (db : DB) (hwf : WF db) (hmono : TsMonotone db) :
    ∀ t ∈ db.tasks, treeStatusOf db t.id = get_current_status db t.id := by
  intro t ht
  by_cases hlog : logsFor db t.id = []
  · rw [gcs_empty hlog]
    rw [treeStatusOf, latest_status_rows, List.find?_append]
    have hA : ((taskIdsWithLogs db).filterMap
        (fun tid => (db.logs.find? (fun e => e.id == maxLogId db tid)).map
          (fun e => (e.task_id, (resolveStatus db e.status_id).getD "Pending")))).find?
        (fun p => p.1 == t.id) = none := by
      rw [List.find?_eq_none]
      intro x hx
      rw [List.mem_filterMap] at hx
      obtain ⟨k, hk, hfk⟩ := hx
      obtain ⟨e, hf, hetid, heIn, _⟩ := latest_find_of_mem_keys hwf hk
      rw [hf] at hfk
      have hx1 : x.1 = k := by
        have : (e.task_id, (resolveStatus db e.status_id).getD "Pending") = x := by
          simpa using hfk
        rw [← this, hetid]
      simp only [hx1]
      intro hbeq
      have hkt : k = t.id := by simpa using hbeq
      rw [hkt, hlog] at heIn
      exact absurd heIn (List.not_mem_nil e)
    rw [hA]
    cases hB : ((db.tasks.filter (fun x => (logsFor db x.id).isEmpty)).map
        (fun x => (x.id, "Pending"))).find? (fun p => p.1 == t.id) with
    | none => simp [hB]
    | some pr => simp [hB, partB_find_pending hB]
  · have hkmem : t.id ∈ taskIdsWithLogs db := by
      obtain ⟨e0, he0⟩ : ∃ e0, e0 ∈ logsFor db t.id := by
        cases hl : logsFor db t.id with
        | nil => exact absurd hl hlog
        | cons a l => exact ⟨a, List.mem_cons_self a l⟩
      rw [taskIdsWithLogs, List.mem_dedup, List.mem_map]
      exact ⟨e0, (mem_logsFor.mp he0).1, (mem_logsFor.mp he0).2⟩
    obtain ⟨e, hf, hetid, heIn, heMax⟩ := latest_find_of_mem_keys hwf hkmem
    have hprop : ∀ k ∈ taskIdsWithLogs db, ∃ v,
        ((db.logs.find? (fun x => x.id == maxLogId db k)).map
          (fun x => (x.task_id, (resolveStatus db x.status_id).getD "Pending"))) = some (k, v) := by
      intro k hk
      obtain ⟨e', hf', hetid', _, _⟩ := latest_find_of_mem_keys hwf hk
      refine ⟨(resolveStatus db e'.status_id).getD "Pending", ?_⟩
      rw [hf']
      show some (e'.task_id, (resolveStatus db e'.status_id).getD "Pending") = _
      rw [hetid']
    obtain ⟨v, hfind, hfv⟩ := find?_key_filterMap hprop hkmem
    have hv : v = (resolveStatus db e.status_id).getD "Pending" := by
      rw [hf] at hfv
      have : (e.task_id, (resolveStatus db e.status_id).getD "Pending") = (t.id, v) := by
        simpa using hfv
      have h2 := congrArg Prod.snd this
      exact h2.symm
    have hlatest : ∀ x ∈ logsFor db t.id, x = e ∨ lexLt x e := by
      intro x hx
      by_cases hxe : x = e
      · exact Or.inl hxe
      · right
        have hxid : x.id ≤ maxLogId db t.id := le_maxLogId hx
        have hneq : x.id ≠ e.id := by
          intro h0
          exact hxe (nodup_key_eq hwf.1 (mem_logsFor.mp hx).1 (mem_logsFor.mp heIn).1 h0)
        have hlt : x.id < e.id := by
          rw [heMax]
          rw [heMax] at hneq
          omega
        have hts : x.timestamp ≤ e.timestamp :=
          hmono x (mem_logsFor.mp hx).1 e (mem_logsFor.mp heIn).1
            (by rw [(mem_logsFor.mp hx).2, (mem_logsFor.mp heIn).2]) (Nat.le_of_lt hlt)
        rcases Nat.lt_or_ge x.timestamp e.timestamp with h1 | h1
        · exact Or.inl h1
        · exact Or.inr ⟨Nat.le_antisymm hts h1, hlt⟩
    rw [gcs_eq_of_latest hwf heIn hlatest]
    rw [treeStatusOf, latest_status_rows, List.find?_append, hfind]
    simp [hv]

/-- C10 witness: agreement of the two derivations on `dbPair`, whose
timestamps grow with the entry ids. -/
theorem tree_status_refines_spec_witness :
    (WF dbPair ∧ TsMonotone dbPair) ∧
    (∀ t ∈ dbPair.tasks, treeStatusOf dbPair t.id = get_current_status dbPair t.id) :=
  ⟨⟨by decide, by decide⟩, tree_status_refines_spec dbPair (by decide) (by decide)⟩

/-! ### Lemmas: markdown export rendering -/

theorem renderTask_head {rows : List TaskRow} {fuel : Nat} (r : TaskRow) (h : 0 < fuel) :
    r.id ∈ renderTask rows fuel r := by
  cases fuel with
  | zero => exact absurd h (Nat.lt_irrefl 0)
  | succ fuel =>
      show r.id ∈ r.id :: (sortByDue (childrenOf rows r.id)).flatMap (renderTask rows fuel)
      exact List.mem_cons_self _ _

theorem renderTask_src {rows : List TaskRow} :
    ∀ {fuel : Nat} {r : TaskRow} {tid : Nat}, tid ∈ renderTask rows fuel r →
      tid = r.id ∨ ∃ x ∈ rows, x.id = tid ∧ x.parent_id ≠ none := by
  intro fuel
  induction fuel with
  | zero => intro r tid h; exact absurd h (List.not_mem_nil tid)
  | succ fuel ih =>
      intro r tid h
      have h' : tid ∈ r.id :: (sortByDue (childrenOf rows r.id)).flatMap (renderTask rows fuel) := h
      rcases List.mem_cons.mp h' with he | hf
      · exact Or.inl he
      · rw [List.mem_flatMap] at hf
        obtain ⟨c, hc, hmem⟩ := hf
        have hc' := List.mem_filter.mp (mem_sortOrd.mp hc)
        have hcp : c.parent_id ≠ none := by
          have : c.parent_id = some r.id := by simpa using hc'.2
          rw [this]
          simp
        rcases ih hmem with he2 | hex
        · exact Or.inr ⟨c, hc'.1, he2.symm, hcp⟩
        · exact Or.inr hex

theorem renderTask_closed {rows : List TaskRow}
    (hnd : (rows.map (fun r => r.id)).Nodup)
    (hlt : ∀ x ∈ rows, ∀ p, x.parent_id = some p → p < x.id) :
    ∀ (fuel : Nat) (r : TaskRow), r ∈ rows →
      (rows.filter (fun x => r.id < x.id)).length < fuel →
      ∀ t ∈ rows, t.id ∈ renderTask rows fuel r →
        ∀ c ∈ childrenOf rows t.id, c.id ∈ renderTask rows fuel r := by
  intro fuel
  induction fuel with
  | zero => intro r _ h; exact absurd h (Nat.not_lt_zero _)
  | succ fuel ih =>
      intro r hr hB t htrows hmem c hc
      have hchild_lt : ∀ x ∈ childrenOf rows r.id, r.id < x.id := by
        intro x hx
        have hx' := List.mem_filter.mp hx
        have hxp : x.parent_id = some r.id := by simpa using hx'.2
        exact hlt x hx'.1 r.id hxp
      have hBc : ∀ x ∈ childrenOf rows r.id,
          (rows.filter (fun y => x.id < y.id)).length < fuel := by
        intro x hx
        have h1 : (rows.filter (fun y => x.id < y.id)).length
            < (rows.filter (fun y => r.id < y.id)).length := by
          apply length_filter_lt x ((List.mem_filter.mp hx).1)
          · exact decide_eq_true (hchild_lt x hx)
          · simp
          · intro y _ hq
            have hq' : x.id < y.id := of_decide_eq_true hq
            have hrx : r.id < x.id := hchild_lt x hx
            exact decide_eq_true (Nat.lt_trans hrx hq')
        omega
      have hmem' : t.id ∈ r.id ::
          (sortByDue (childrenOf rows r.id)).flatMap (renderTask rows fuel) := hmem
      show c.id ∈ r.id :: (sortByDue (childrenOf rows r.id)).flatMap (renderTask rows fuel)
      rcases List.mem_cons.mp hmem' with hte | hflat
      · have htr : t = r := nodup_key_eq hnd htrows hr hte
        have hcr : c ∈ childrenOf rows r.id := htr ▸ hc
        have hcS : c ∈ sortByDue (childrenOf rows r.id) := mem_sortOrd.mpr hcr
        have hfuelpos : 0 < fuel := by
          have := hBc c hcr
          omega
        exact List.mem_cons_of_mem _
          (List.mem_flatMap.mpr ⟨c, hcS, renderTask_head c hfuelpos⟩)
      · rw [List.mem_flatMap] at hflat
        obtain ⟨c0, hc0, hmem0⟩ := hflat
        have hc0' : c0 ∈ childrenOf rows r.id := mem_sortOrd.mp hc0
        have hrec := ih c0 ((List.mem_filter.mp hc0').1) (hBc c0 hc0') t htrows hmem0 c hc
        exact List.mem_cons_of_mem _ (List.mem_flatMap.mpr ⟨c0, hc0, hrec⟩)

theorem renderSection_root_mem {allRows sect : List TaskRow} {r : TaskRow} {cid0 : Nat}
    (hr : r ∈ sect) (hroot : r.parent_id = none) (hcat : r.category_id = some cid0) :
    r.id ∈ renderSection allRows sect := by
  rw [renderSection, List.mem_flatMap]
  refine ⟨cid0, mem_catKeys_of hr hcat, ?_⟩
  show r.id ∈ (sortByDue ((sect.filter (fun x => x.category_id == some cid0)).filter
    (fun x => x.parent_id == none))).flatMap (renderTask allRows (allRows.length + 1))
  rw [List.mem_flatMap]
  refine ⟨r, ?_, renderTask_head r (by omega)⟩
  exact mem_sortOrd.mpr (List.mem_filter.mpr
    ⟨List.mem_filter.mpr ⟨hr, by simp [hcat]⟩, by simp [hroot]⟩)

theorem renderSection_closed {allRows sect : List TaskRow}
    (hnd : (allRows.map (fun r => r.id)).Nodup)
    (hlt : ∀ x ∈ allRows, ∀ p, x.parent_id = some p → p < x.id)
    (hsub : ∀ x ∈ sect, x ∈ allRows) :
    ∀ t ∈ allRows, t.id ∈ renderSection allRows sect →
      ∀ c ∈ childrenOf allRows t.id, c.id ∈ renderSection allRows sect := by
  intro t ht hmem c hc
  rw [renderSection, List.mem_flatMap] at hmem ⊢
  obtain ⟨cid, hcid, hin⟩ := hmem
  refine ⟨cid, hcid, ?_⟩
  have hin' : t.id ∈ (sortByDue ((sect.filter (fun x => x.category_id == some cid)).filter
      (fun x => x.parent_id == none))).flatMap (renderTask allRows (allRows.length + 1)) := hin
  show c.id ∈ (sortByDue ((sect.filter (fun x => x.category_id == some cid)).filter
    (fun x => x.parent_id == none))).flatMap (renderTask allRows (allRows.length + 1))
  rw [List.mem_flatMap] at hin' ⊢
  obtain ⟨root, hrootS, hmemT⟩ := hin'
  have hrootRows : root ∈ allRows :=
    hsub root (List.mem_filter.mp (List.mem_filter.mp (mem_sortOrd.mp hrootS)).1).1
  have hBroot : (allRows.filter (fun y => root.id < y.id)).length < allRows.length + 1 := by
    have := List.length_filter_le (fun y => decide (root.id < y.id)) allRows
    omega
  exact ⟨root, hrootS,
    renderTask_closed hnd hlt (allRows.length + 1) root hrootRows hBroot t ht hmemT c hc⟩

theorem renderSection_uncat_not_mem {allRows sect : List TaskRow} {r : TaskRow}
    (hnd : (allRows.map (fun x => x.id)).Nodup)
    (hsub : ∀ x ∈ sect, x ∈ allRows)
    (hr : r ∈ allRows) (hroot : r.parent_id = none) (hcat : r.category_id = none) :
    r.id ∉ renderSection allRows sect := by
  intro hmem
  rw [renderSection, List.mem_flatMap] at hmem
  obtain ⟨cid, _, hin⟩ := hmem
  have hin' : r.id ∈ (sortByDue ((sect.filter (fun x => x.category_id == some cid)).filter
      (fun x => x.parent_id == none))).flatMap (renderTask allRows (allRows.length + 1)) := hin
  rw [List.mem_flatMap] at hin'
  obtain ⟨root, hrootS, hmemT⟩ := hin'
  have hrootfl := List.mem_filter.mp (mem_sortOrd.mp hrootS)
  have hrootgl := List.mem_filter.mp hrootfl.1
  have hrootRows : root ∈ allRows := hsub root hrootgl.1
  have hrootcat : root.category_id = some cid := by simpa using hrootgl.2
  rcases renderTask_src hmemT with heq | ⟨x, hx, hxid, hxp⟩
  · have hrroot : r = root := nodup_key_eq hnd hr hrootRows heq
    rw [hrroot, hrootcat] at hcat
    exact absurd hcat (by simp)
  · have hxr : x = r := nodup_key_eq hnd hx hr hxid
    rw [hxr, hroot] at hxp
    exact hxp rfl

theorem exportRows_parent_lt {db : DB} (hpl : ParentIdsLt db) :
    ∀ x ∈ exportRows db, ∀ p, x.parent_id = some p → p < x.id := by
  intro x hx p hp
  obtain ⟨t, ht, hid, hpar, _, _⟩ :=
    of_mem_rowsWithCounts (show x ∈ rowsWithCounts db none from hx)
  have h1 := hpl t ht p (by rw [← hpar]; exact hp)
  rw [hid]
  exact h1

theorem exportRows_ids_nodup {db : DB} (hwf : WF db) :
    ((exportRows db).map (fun r => r.id)).Nodup :=
  rows_ids_nodup none hwf

/-- C9 counterexample: in `dbExport`, subtask 2 is `Completed` but is
rendered in the Active section (nested under its active parent) and not
in the Completed section; uncategorized active root 3 is rendered in
neither section (its `NaN` groupby key is dropped). -/
theorem export_partition_counterexample :
    get_current_status dbExport 2 = "Completed" ∧
    (2 : Nat) ∈ export_active_ids dbExport ∧
    (2 : Nat) ∉ export_completed_ids dbExport ∧
    get_current_status dbExport 3 = "Not Started" ∧
    (3 : Nat) ∉ export_active_ids dbExport ∧
    (3 : Nat) ∉ export_completed_ids dbExport := by
  decide

/-- C9 (amended): the export always renders the full
`show_completed = True`, unfiltered row set; the Active/Completed
partition governs root tasks with a category — such a root is rendered
in the section matching its own status — while each rendered task's
subtasks are rendered beneath it in the same section whatever their own
status, and a root task without a category is rendered in neither
section. -/
theorem export_partition_spec (db : DB) (hwf : WF db) (hpl : ParentIdsLt db) :
    (∀ r ∈ activeRows db, r.parent_id = none → ∀ c0, r.category_id = some c0 →
        r.id ∈ export_active_ids db) ∧
    (∀ r ∈ completedRows db, r.parent_id = none → ∀ c0, r.category_id = some c0 →
        r.id ∈ export_completed_ids db) ∧
    (∀ t ∈ exportRows db, t.id ∈ export_active_ids db →
        ∀ c ∈ childrenOf (exportRows db) t.id, c.id ∈ export_active_ids db) ∧
    (∀ t ∈ exportRows db, t.id ∈ export_completed_ids db →
        ∀ c ∈ childrenOf (exportRows db) t.id, c.id ∈ export_completed_ids db) ∧
    (∀ r ∈ exportRows db, r.parent_id = none → r.category_id = none →
        r.id ∉ export_active_ids db ∧ r.id ∉ export_completed_ids db) := by
  have hnd := exportRows_ids_nodup hwf
  have hlt := exportRows_parent_lt hpl
  have hsubA : ∀ x ∈ activeRows db, x ∈ exportRows db :=
    fun x hx => (List.mem_filter.mp hx).1
  have hsubC : ∀ x ∈ completedRows db, x ∈ exportRows db :=
    fun x hx => (List.mem_filter.mp hx).1
  refine ⟨?_, ?_, ?_, ?_, ?_⟩
  · intro r hr hroot c0 hcat
    exact renderSection_root_mem hr hroot hcat
  · intro r hr hroot c0 hcat
    exact renderSection_root_mem hr hroot hcat
  · exact renderSection_closed hnd hlt hsubA
  · exact renderSection_closed hnd hlt hsubC
  · intro r hr hroot hcat
    exact ⟨renderSection_uncat_not_mem hnd hsubA hr hroot hcat,
      renderSection_uncat_not_mem hnd hsubC hr hroot hcat⟩

/-- C9 witness: the amended partition properties instantiated in
`dbExport`. -/
theorem export_partition_spec_witness :
    (WF dbExport ∧ ParentIdsLt dbExport) ∧
    ((∀ r ∈ activeRows dbExport, r.parent_id = none → ∀ c0, r.category_id = some c0 →
        r.id ∈ export_active_ids dbExport) ∧
    (∀ r ∈ completedRows dbExport, r.parent_id = none → ∀ c0, r.category_id = some c0 →
        r.id ∈ export_completed_ids dbExport) ∧
    (∀ t ∈ exportRows dbExport, t.id ∈ export_active_ids dbExport →
        ∀ c ∈ childrenOf (exportRows dbExport) t.id, c.id ∈ export_active_ids dbExport) ∧
    (∀ t ∈ exportRows dbExport, t.id ∈ export_completed_ids dbExport →
        ∀ c ∈ childrenOf (exportRows dbExport) t.id, c.id ∈ export_completed_ids dbExport) ∧
    (∀ r ∈ exportRows dbExport, r.parent_id = none → r.category_id = none →
        r.id ∉ export_active_ids dbExport ∧ r.id ∉ export_completed_ids dbExport)) :=
  ⟨⟨by decide, by decide⟩, export_partition_spec dbExport (by decide) (by decide)⟩

end Todo
